import Mathlib

/-!
Verification development for the embedded-SQL region detector of the
duckdb-r-editor extension.  The TypeScript scanners are translated into
executable Lean definitions over `List Char`; theorems relate them to
declarative characterizations and settle the frozen claims.
-/

/-- The single-quote character. -/
def squote : Char := Char.ofNat 39

/-- The backslash character. -/
def bslash : Char := '\\'

/-- The back-quote character. -/
def bquote : Char := Char.ofNat 96

/-- The opening curly brace character. -/
def obrace : Char := Char.ofNat 123

/-- The closing curly brace character. -/
def cbrace : Char := Char.ofNat 125

/-- The null character, used to model reading past the end of a JS string. -/
def nulc : Char := Char.ofNat 0

/-- The ASCII part of the JS regexp whitespace class. -/
def isJsSpace (c : Char) : Bool :=
  c = ' ' || c = '\t' || c = '\n' || c = '\r' || c = Char.ofNat 11 || c = Char.ofNat 12

/-- A JS regexp word character (letters, digits, underscore). -/
def isWordChar (c : Char) : Bool :=
  ('a' ≤ c && c ≤ 'z') || ('A' ≤ c && c ≤ 'Z') || ('0' ≤ c && c ≤ '9') || c = '_'

/-- ASCII lower-casing of one character, as used for the case-insensitive
function-name comparisons of the source. -/
def lowChar (c : Char) : Char :=
  if 'A' ≤ c && c ≤ 'Z' then Char.ofNat (c.toNat + 32) else c

/-- ASCII lower-casing of a character list. -/
def lowStr (s : List Char) : List Char := s.map lowChar

/-- Whether `pat` is an initial segment of `s`. -/
def startsWithL : List Char → List Char → Bool
  | [], _ => true
  | _ :: _, [] => false
  | p :: ps, c :: cs => p = c && startsWithL ps cs

/-- The number of positions of `s` at which `pat` starts (occurrence count). -/
def countOccs (pat : List Char) : List Char → Nat
  | [] => 0
  | c :: cs => (if startsWithL pat (c :: cs) then 1 else 0) + countOccs pat cs

/-- Leading-whitespace removal (half of the JS `trim`). -/
def trimLeft (s : List Char) : List Char := s.dropWhile isJsSpace

/-- Trailing-whitespace removal (half of the JS `trim`). -/
def trimRight (s : List Char) : List Char := (s.reverse.dropWhile isJsSpace).reverse

/-- The JS `String.prototype.trim`. -/
def jsTrim (s : List Char) : List Char := trimRight (trimLeft s)

/-- One step of the string-tracking logic shared by all the scanners of the
source (each of them repeats the same code updating `inString` and
`stringChar`).  `wbt` selects whether the back-quote also delimits strings;
`pb` says whether the previous character was a backslash, which is how the
source tests that the quote is escaped. -/
def quoteUpd (wbt : Bool) (pb : Bool) (inStr : Bool) (sc c : Char) : Bool × Char :=
  if (c = '"' || c = squote || (wbt && c = bquote)) && !pb then
    if !inStr then (true, c)
    else if c = sc then (false, sc)
    else (inStr, sc)
  else (inStr, sc)

/-!
## GlueInterpolationHandler (src/src/utils/rCodeExecutor.ts)
-/

/-- Loop body of `GlueInterpolationHandler.isInsideInterpolation`: walks the
characters before the cursor tracking quoted sub-strings (double and single
quote only) and brace nesting depth. -/
def isInsideInterpolationGo : List Char → Bool → Int → Bool → Char → Bool
  | [], _, depth, _, _ => decide (0 < depth)
  | c :: cs, pb, depth, inStr, sc =>
    let u := quoteUpd false pb inStr sc c
    let depth1 :=
      if !u.1 then
        if c = obrace then depth + 1
        else if c = cbrace then depth - 1
        else depth
      else depth
    isInsideInterpolationGo cs (c = bslash) depth1 u.1 u.2

/-- `GlueInterpolationHandler.isInsideInterpolation`: true when the brace
nesting depth just before `cursorOffset` is positive. -/
def isInsideInterpolation (sqlString : List Char) (cursorOffset : Nat) : Bool :=
  isInsideInterpolationGo (sqlString.take cursorOffset) false 0 false nulc

/-- Each character of the input paired with the string-tracking state right
after processing it (the state the source consults for that character). -/
def scanFlags (wbt : Bool) : List Char → Bool → Bool → Char → List (Char × Bool)
  | [], _, _, _ => []
  | c :: cs, pb, inStr, sc =>
    let u := quoteUpd wbt pb inStr sc c
    (c, u.1) :: scanFlags wbt cs (c = bslash) u.1 u.2

/-- Net brace count of a flagged character list: opening braces outside
quoted sub-strings minus closing braces outside quoted sub-strings. -/
def braceNet (fl : List (Char × Bool)) : Int :=
  ((fl.filter (fun p => !p.2 && p.1 = obrace)).length : Int) -
    ((fl.filter (fun p => !p.2 && p.1 = cbrace)).length : Int)

/-- Declarative brace nesting depth of `s` at `off`: count over the prefix
before `off`, ignoring braces inside quoted sub-strings, where only the
double quote and the single quote (not the back-quote) delimit sub-strings
and a quote immediately preceded by a backslash is not a delimiter. -/
def glueDepthAt (s : List Char) (off : Nat) : Int :=
  braceNet (scanFlags false (s.take off) false false nulc)

theorem braceNet_cons (p : Char × Bool) (fl : List (Char × Bool)) :
    braceNet (p :: fl) =
      (if !p.2 && p.1 = obrace then (1 : Int) else 0) -
        (if !p.2 && p.1 = cbrace then (1 : Int) else 0) + braceNet fl := by
  by_cases h1 : !p.2 && p.1 = obrace <;> by_cases h2 : !p.2 && p.1 = cbrace <;>
    simp [braceNet, List.filter, h1, h2] <;> omega

theorem isInsideInterpolationGo_eq_net (cs : List Char) :
    ∀ pb depth inStr sc,
      isInsideInterpolationGo cs pb depth inStr sc =
        decide (0 < depth + braceNet (scanFlags false cs pb inStr sc)) := by
  induction cs with
  | nil => intro pb depth inStr sc; simp [isInsideInterpolationGo, scanFlags, braceNet]
  | cons c cs ih =>
    intro pb depth inStr sc
    simp only [isInsideInterpolationGo, scanFlags, ih, braceNet_cons]
    rw [decide_eq_decide]
    have hoc : obrace ≠ cbrace := by decide
    by_cases hi : (quoteUpd false pb inStr sc c).1
    · simp [hi] <;> omega
    · by_cases ho : c = obrace
      · subst ho; simp [hi, hoc] <;> omega
      · by_cases hc : c = cbrace
        · subst hc; simp [hi, ho] <;> omega
        · simp [hi, ho, hc] <;> omega

/-- Claim C5: for every string and offset, isInsideGlueInterpolation (the
GlueInterpolationHandler.isInsideInterpolation it delegates to) returns
true if and only if the brace nesting depth at the offset is positive,
where the depth is computed over the prefix before the offset, braces
inside quoted sub-strings are ignored, only the double quote and the
single quote (not the back-quote) delimit such sub-strings, and a quote
immediately preceded by a backslash is not a delimiter. -/
theorem c5_isInsideInterpolation_iff_depth_pos (sqlText : List Char) (offset : Nat) :
    isInsideInterpolation sqlText offset = decide (0 < glueDepthAt sqlText offset) := by
  rw [isInsideInterpolation, glueDepthAt, isInsideInterpolationGo_eq_net]
  norm_num

/-- The fixed placeholder token substituted for interpolation blocks. -/
def PLACEHOLDER_VALUE : List Char := "PLACEHOLDER_VALUE".data

/-- Loop body of `GlueInterpolationHandler.stripInterpolations`.  State:
remaining characters, previous-character-is-backslash, brace depth,
string-tracking state, the `interpolationStart` index (`none` models the
source value -1), the current index, and the accumulated result. -/
def stripGo : List Char → Bool → Int → Bool → Char → Option Nat → Nat → List Char → List Char
  | [], _, _, _, _, _, _, res => res
  | c :: cs, pb, depth, inStr, sc, istart, i, res =>
    let u := quoteUpd false pb inStr sc c
    if u.1 then
      stripGo cs (c = bslash) depth u.1 u.2 istart (i + 1)
        (if depth = 0 then res ++ [c] else res)
    else if c = obrace then
      stripGo cs (c = bslash) (depth + 1) u.1 u.2
        (if depth = 0 then some i else istart) (i + 1)
        (if depth + 1 = 0 then res ++ [c] else res)
    else if c = cbrace then
      if depth - 1 = 0 && istart.isSome then
        stripGo cs (c = bslash) (depth - 1) u.1 u.2 none (i + 1) (res ++ PLACEHOLDER_VALUE)
      else
        stripGo cs (c = bslash) (depth - 1) u.1 u.2 istart (i + 1)
          (if depth - 1 = 0 then res ++ [c] else res)
    else
      stripGo cs (c = bslash) depth u.1 u.2 istart (i + 1)
        (if depth = 0 then res ++ [c] else res)

/-- `GlueInterpolationHandler.stripInterpolations`: replaces every glue
interpolation block by the placeholder token. -/
def stripInterpolations (sqlString : List Char) : List Char :=
  stripGo sqlString false 0 false nulc none 0 []

/-- Scan of a literal (non-interpolation) run of SQL text: tracks quoted
sub-strings exactly as `stripInterpolations` does, fails if a brace occurs
outside a quoted sub-string, and returns the final previous-character and
string-tracking state. -/
def litScan : List Char → Bool → Bool → Char → Option (Bool × Bool × Char)
  | [], pb, inStr, sc => some (pb, inStr, sc)
  | c :: cs, pb, inStr, sc =>
    let u := quoteUpd false pb inStr sc c
    if !u.1 && (c = obrace || c = cbrace) then none
    else litScan cs (c = bslash) u.1 u.2

/-- Scan of the inside of an interpolation block: tracks quotes and nested
braces; fails if the depth would return to zero before the end or if the
block content does not end at depth one outside a quoted sub-string. -/
def bodyScan : List Char → Bool → Int → Bool → Char → Option (Bool × Char)
  | [], pb, depth, inStr, sc => if depth = 1 && !inStr then some (pb, sc) else none
  | c :: cs, pb, depth, inStr, sc =>
    let u := quoteUpd false pb inStr sc c
    if u.1 then bodyScan cs (c = bslash) depth u.1 u.2
    else if c = obrace then bodyScan cs (c = bslash) (depth + 1) u.1 u.2
    else if c = cbrace then
      if depth = 1 then none else bodyScan cs (c = bslash) (depth - 1) u.1 u.2
    else bodyScan cs (c = bslash) depth u.1 u.2

/-- Well-formedness of a segmentation of SQL text into a leading literal
run followed by interpolation blocks each followed by a literal run,
threading the scanner state across the boundaries. -/
def itemsScan : Bool → Char → List Char → List (List Char × List Char) → Bool
  | pb, sc, l0, [] =>
    match litScan l0 pb false sc with
    | some (_, false, _) => true
    | _ => false
  | pb, sc, l0, (body, lit) :: rest =>
    match litScan l0 pb false sc with
    | some (_, false, sc1) =>
      match bodyScan body false 1 false sc1 with
      | some (_, scB) => itemsScan false scB lit rest
      | none => false
    | _ => false

/-- The SQL text denoted by a segmentation: literal runs interleaved with
brace-delimited interpolation blocks. -/
def renderIn : List Char → List (List Char × List Char) → List Char
  | l0, [] => l0
  | l0, (body, lit) :: rest => l0 ++ (obrace :: (body ++ cbrace :: renderIn lit rest))

/-- The expected stripped text of a segmentation: the literal runs
preserved verbatim, each block replaced by the placeholder token. -/
def renderOut : List Char → List (List Char × List Char) → List Char
  | l0, [] => l0
  | l0, (body, lit) :: rest => l0 ++ (PLACEHOLDER_VALUE ++ renderOut lit rest)

theorem stripGo_lit (s : List Char) :
    ∀ (rest : List Char) (pb inStr : Bool) (sc : Char) (pbF : Bool) (scF : Char)
      (istart : Option Nat) (i : Nat) (res : List Char),
      litScan s pb inStr sc = some (pbF, false, scF) →
      stripGo (s ++ rest) pb 0 inStr sc istart i res =
        stripGo rest pbF 0 false scF istart (i + s.length) (res ++ s) := by
  induction s with
  | nil =>
    intro rest pb inStr sc pbF scF istart i res h
    simp only [litScan, Option.some.injEq, Prod.mk.injEq] at h
    obtain ⟨h1, h2, h3⟩ := h
    subst h1; subst h3
    rw [← h2]
    simp
  | cons c cs ih =>
    intro rest pb inStr sc pbF scF istart i res h
    simp only [litScan] at h
    by_cases hbr : (!(quoteUpd false pb inStr sc c).1 && (decide (c = obrace) || decide (c = cbrace))) = true
    · rw [if_pos hbr] at h; exact absurd h (by simp)
    · rw [if_neg hbr] at h
      have e1 : i + (c :: cs).length = (i + 1) + cs.length := by simp [List.length_cons]; omega
      have e2 : res ++ c :: cs = (res ++ [c]) ++ cs := by simp
      rw [e1, e2]
      by_cases hq : (quoteUpd false pb inStr sc c).1 = true
      · rw [hq] at h
        simp only [List.cons_append, stripGo, hq, if_true, if_pos rfl]
        exact ih rest _ _ _ pbF scF istart (i + 1) (res ++ [c]) h
      · have hq2 : (quoteUpd false pb inStr sc c).1 = false := by
          revert hq; cases (quoteUpd false pb inStr sc c).1 <;> simp
        have hnc : ¬ c = obrace ∧ ¬ c = cbrace := by
          constructor <;> intro hcc <;> subst hcc <;> apply hbr <;> simp [hq2]
        rw [hq2] at h
        simp only [List.cons_append, stripGo, hq2, Bool.false_eq_true, if_false,
          if_neg hnc.1, if_neg hnc.2, if_pos rfl]
        exact ih rest _ _ _ pbF scF istart (i + 1) (res ++ [c]) h

theorem stripGo_body (body : List Char) :
    ∀ (rest : List Char) (pb : Bool) (d : Int) (inStr : Bool) (sc : Char) (pbF : Bool) (scF : Char)
      (istart : Option Nat) (i : Nat) (res : List Char),
      1 ≤ d →
      bodyScan body pb d inStr sc = some (pbF, scF) →
      stripGo (body ++ rest) pb d inStr sc istart i res =
        stripGo rest pbF 1 false scF istart (i + body.length) res := by
  induction body with
  | nil =>
    intro rest pb d inStr sc pbF scF istart i res hd h
    simp only [bodyScan] at h
    by_cases hc : (decide (d = 1) && !inStr) = true
    · rw [if_pos hc] at h
      simp only [Option.some.injEq, Prod.mk.injEq] at h
      simp only [Bool.and_eq_true, decide_eq_true_eq, Bool.not_eq_true'] at hc
      obtain ⟨hd1, hi0⟩ := hc
      obtain ⟨hpb, hsc⟩ := h
      subst hpb; subst hsc; subst hd1; subst hi0
      simp
    · rw [if_neg hc] at h; exact absurd h (by simp)
  | cons c cs ih =>
    intro rest pb d inStr sc pbF scF istart i res hd h
    simp only [bodyScan] at h
    have e1 : i + (c :: cs).length = (i + 1) + cs.length := by simp [List.length_cons]; omega
    rw [e1]
    by_cases hq : (quoteUpd false pb inStr sc c).1 = true
    · rw [if_pos hq] at h
      rw [hq] at h
      simp only [List.cons_append, stripGo, hq, if_true]
      rw [if_neg (show ¬ d = (0 : Int) by omega)]
      exact ih rest _ d true _ pbF scF istart (i + 1) res hd h
    · have hq2 : (quoteUpd false pb inStr sc c).1 = false := by
        revert hq; cases (quoteUpd false pb inStr sc c).1 <;> simp
      rw [if_neg hq] at h
      by_cases ho : c = obrace
      · subst ho
        rw [if_pos rfl] at h
        rw [hq2] at h
        simp only [List.cons_append, stripGo, hq2, Bool.false_eq_true, if_false, if_pos rfl]
        rw [if_neg (show ¬ d = (0 : Int) by omega),
          if_neg (show ¬ d + 1 = (0 : Int) by omega)]
        exact ih rest _ (d + 1) false _ pbF scF istart (i + 1) res (by omega) h
      · rw [if_neg ho] at h
        by_cases hcb : c = cbrace
        · subst hcb
          rw [if_pos rfl] at h
          by_cases hd1 : d = (1 : Int)
          · rw [if_pos hd1] at h; exact absurd h (by simp)
          · rw [if_neg hd1] at h
            rw [hq2] at h
            have hdm : ¬ (d - 1 = (0 : Int)) := by omega
            simp only [List.cons_append, stripGo, hq2, Bool.false_eq_true, if_false,
              if_neg (show ¬ cbrace = obrace by decide), if_pos rfl]
            rw [if_neg (show ¬ (decide (d - 1 = 0) && istart.isSome) = true by simp [hdm])]
            rw [if_neg hdm]
            exact ih rest _ (d - 1) false _ pbF scF istart (i + 1) res (by omega) h
        · rw [if_neg hcb] at h
          rw [hq2] at h
          simp only [List.cons_append, stripGo, hq2, Bool.false_eq_true, if_false,
            if_neg ho, if_neg hcb]
          rw [if_neg (show ¬ d = (0 : Int) by omega)]
          exact ih rest _ d false _ pbF scF istart (i + 1) res hd h

theorem stripGo_block (body rest : List Char) (pb : Bool) (sc : Char) (pbF : Bool) (scF : Char)
    (istart : Option Nat) (i : Nat) (res : List Char)
    (h : bodyScan body false 1 false sc = some (pbF, scF)) :
    stripGo ((obrace :: (body ++ [cbrace])) ++ rest) pb 0 false sc istart i res =
      stripGo rest false 0 false scF none (i + body.length + 2) (res ++ PLACEHOLDER_VALUE) := by
  have e0 : (obrace :: (body ++ [cbrace])) ++ rest = obrace :: (body ++ (cbrace :: rest)) := by
    simp
  rw [e0]
  have step1 : stripGo (obrace :: (body ++ (cbrace :: rest))) pb 0 false sc istart i res =
      stripGo (body ++ (cbrace :: rest)) false 1 false sc (some i) (i + 1) res := rfl
  rw [step1]
  rw [stripGo_body body (cbrace :: rest) false 1 false sc pbF scF (some i) (i + 1) res
    (by omega) h]
  have step2 : stripGo (cbrace :: rest) pbF 1 false scF (some i) (i + 1 + body.length) res =
      stripGo rest false 0 false scF none (i + 1 + body.length + 1)
        (res ++ PLACEHOLDER_VALUE) := rfl
  rw [step2]
  rw [show i + 1 + body.length + 1 = i + body.length + 2 from by omega]

theorem stripGo_items (ps : List (List Char × List Char)) :
    ∀ (l0 : List Char) (pb : Bool) (sc : Char) (istart : Option Nat) (i : Nat) (res : List Char),
      itemsScan pb sc l0 ps = true →
      stripGo (renderIn l0 ps) pb 0 false sc istart i res = res ++ renderOut l0 ps := by
  induction ps with
  | nil =>
    intro l0 pb sc istart i res h
    simp only [itemsScan] at h
    cases hls : litScan l0 pb false sc with
    | none => rw [hls] at h; exact absurd h (by simp)
    | some t =>
      obtain ⟨pbF, inF, scF⟩ := t
      rw [hls] at h
      cases inF with
      | true => exact absurd h (by simp)
      | false =>
        have e0 : renderIn l0 [] = l0 ++ [] := by simp [renderIn]
        rw [e0, stripGo_lit l0 [] pb false sc pbF scF istart i res hls]
        simp [stripGo, renderOut]
  | cons p rest ih =>
    obtain ⟨body, lit⟩ := p
    intro l0 pb sc istart i res h
    simp only [itemsScan] at h
    cases hls : litScan l0 pb false sc with
    | none => rw [hls] at h; exact absurd h (by simp)
    | some t =>
      obtain ⟨pbF, inF, scF⟩ := t
      rw [hls] at h
      cases inF with
      | true => exact absurd h (by simp)
      | false =>
        have h2 : (match bodyScan body false 1 false scF with
            | some (_, scB) => itemsScan false scB lit rest
            | none => false) = true := h
        cases hbs : bodyScan body false 1 false scF with
        | none => rw [hbs] at h2; exact absurd h2 (by simp)
        | some u =>
          obtain ⟨pbB, scB⟩ := u
          rw [hbs] at h2
          have e0 : renderIn l0 ((body, lit) :: rest) =
              l0 ++ ((obrace :: (body ++ [cbrace])) ++ renderIn lit rest) := by
            simp [renderIn]
          rw [e0]
          rw [stripGo_lit l0 _ pb false sc pbF scF istart i res hls]
          rw [stripGo_block body (renderIn lit rest) pbF scF pbB scB istart
            (i + l0.length) (res ++ l0) hbs]
          rw [ih lit false scB none (i + l0.length + body.length + 2)
            (res ++ l0 ++ PLACEHOLDER_VALUE) h2]
          simp [renderOut]

/-- Claim C3 (amended): stripInterpolations replaces every top-level
balanced brace block of a well-formed segmentation by the single fixed
placeholder token PLACEHOLDER_VALUE (nested braces are consumed as part of
that one block) and preserves every character outside brace blocks
verbatim, newlines and whitespace included; the output is not always
same-or-shorter, because the 17-character token can exceed the block it
replaces. -/
theorem c3_stripInterpolations_replaces_blocks (l0 : List Char)
    (ps : List (List Char × List Char)) (h : itemsScan false nulc l0 ps = true) :
    stripInterpolations (renderIn l0 ps) = renderOut l0 ps := by
  rw [stripInterpolations, stripGo_items ps l0 false nulc none 0 [] h]
  simp

/-- Claim C3 counterexample: on the three-character input consisting of one
interpolation block, the output of stripInterpolations is the 17-character
placeholder, which is longer than the input, refuting the same-or-shorter
part of the claim. -/
theorem c3_counterexample :
    ¬ (stripInterpolations [obrace, 'x', cbrace]).length ≤ [obrace, 'x', cbrace].length := by
  decide

/-- Witness for the amended claim C3 at a concrete segmentation. -/
theorem c3_witness :
    itemsScan false nulc ("SELECT ".data) [(("col").data, (" FROM t").data)] = true ∧
      stripInterpolations (renderIn ("SELECT ".data) [(("col").data, (" FROM t").data)]) =
        renderOut ("SELECT ".data) [(("col").data, (" FROM t").data)] :=
  ⟨by decide, c3_stripInterpolations_replaces_blocks _ _ (by decide)⟩

theorem startsWithL_self_append (p y : List Char) : startsWithL p (p ++ y) = true := by
  induction p with
  | nil => rfl
  | cons c cs ih => simp [startsWithL, ih]

theorem startsWithL_take (a : List Char) :
    ∀ (p y : List Char), startsWithL p (a ++ y) = true →
      startsWithL (p.take a.length) a = true := by
  induction a with
  | nil => intro p y _; simp [startsWithL]
  | cons c cs ih =>
    intro p y h
    cases p with
    | nil => simp [startsWithL]
    | cons q qs =>
      simp only [List.cons_append, startsWithL, Bool.and_eq_true, decide_eq_true_eq] at h
      simp only [List.length_cons, List.take_succ_cons, startsWithL, Bool.and_eq_true,
        decide_eq_true_eq]
      exact ⟨h.1, ih qs y h.2⟩

theorem startsWithL_length_le (p : List Char) :
    ∀ (a : List Char), startsWithL p a = true → p.length ≤ a.length := by
  induction p with
  | nil => intro a _; simp
  | cons q qs ih =>
    intro a h
    cases a with
    | nil => exact absurd h (by simp [startsWithL])
    | cons c cs =>
      simp only [startsWithL, Bool.and_eq_true] at h
      simp only [List.length_cons]
      exact Nat.succ_le_succ (ih cs h.2)

theorem startsWithL_of_append_left (a : List Char) :
    ∀ (p y : List Char), startsWithL p (a ++ y) = true → p.length ≤ a.length →
      startsWithL p a = true := by
  intro p y h hl
  have := startsWithL_take a p y h
  rwa [List.take_of_length_le hl] at this

theorem startsWithL_drop_append (a : List Char) :
    ∀ (p y : List Char), startsWithL p (a ++ y) = true → a.length ≤ p.length →
      startsWithL (p.drop a.length) y = true := by
  induction a with
  | nil => intro p y h _; simpa using h
  | cons c cs ih =>
    intro p y h hl
    cases p with
    | nil => simp at hl
    | cons q qs =>
      simp only [List.cons_append, startsWithL, Bool.and_eq_true] at h
      simp only [List.length_cons, List.drop_succ_cons]
      exact ih qs y h.2 (by simpa using hl)

/-- Occurrence count of `pat` restricted to start positions inside `x`,
within the concatenation `x ++ y`. -/
def countStarts (pat : List Char) : List Char → List Char → Nat
  | [], _ => 0
  | c :: cs, y => (if startsWithL pat (c :: (cs ++ y)) then 1 else 0) + countStarts pat cs y

theorem countOccs_append_eq (pat : List Char) (x : List Char) :
    ∀ y, countOccs pat (x ++ y) = countStarts pat x y + countOccs pat y := by
  induction x with
  | nil => intro y; simp [countStarts]
  | cons c cs ih =>
    intro y
    simp only [List.cons_append, List.append_eq, countOccs, countStarts, ih]
    omega

theorem countStarts_zero (pat : List Char) (x : List Char) :
    ∀ y, (∀ i, i < x.length → startsWithL pat ((x.drop i) ++ y) = false) →
      countStarts pat x y = 0 := by
  induction x with
  | nil => intro y _; rfl
  | cons c cs ih =>
    intro y h
    have h0 := h 0 (by simp)
    simp only [List.drop_zero, List.cons_append] at h0
    simp only [countStarts, h0, if_false, Bool.false_eq_true]
    have : ∀ i, i < cs.length → startsWithL pat ((cs.drop i) ++ y) = false := by
      intro i hi
      have := h (i + 1) (by simp; omega)
      simpa using this
    simpa using ih y this

theorem token_length : PLACEHOLDER_VALUE.length = 17 := by decide

theorem token_border_take :
    ∀ i, i < 17 → i ≠ 0 →
      startsWithL (PLACEHOLDER_VALUE.take (17 - i)) (PLACEHOLDER_VALUE.drop i) = false := by
  decide

theorem token_border_drop :
    ∀ k, k < 17 → k ≠ 0 →
      startsWithL (PLACEHOLDER_VALUE.drop k) PLACEHOLDER_VALUE = false := by
  decide

theorem countStarts_inside_token (y : List Char) (j : Nat) (hj : j < 17) (hj0 : j ≠ 0) :
    startsWithL PLACEHOLDER_VALUE ((PLACEHOLDER_VALUE.drop j) ++ y) = false := by
  by_contra hcon
  have htr : startsWithL PLACEHOLDER_VALUE ((PLACEHOLDER_VALUE.drop j) ++ y) = true := by
    revert hcon; cases startsWithL PLACEHOLDER_VALUE ((PLACEHOLDER_VALUE.drop j) ++ y) <;> simp
  have := startsWithL_take (PLACEHOLDER_VALUE.drop j) PLACEHOLDER_VALUE y htr
  rw [List.length_drop, token_length] at this
  rw [token_border_take j hj hj0] at this
  exact absurd this (by simp)

theorem countStarts_cons (pat : List Char) (c : Char) (cs y : List Char) :
    countStarts pat (c :: cs) y =
      (if startsWithL pat (c :: (cs ++ y)) then 1 else 0) + countStarts pat cs y := rfl

theorem countStarts_token (y : List Char) :
    countStarts PLACEHOLDER_VALUE PLACEHOLDER_VALUE y = 1 := by
  have hsplit : PLACEHOLDER_VALUE = 'P' :: PLACEHOLDER_VALUE.drop 1 := by decide
  have hzero : countStarts PLACEHOLDER_VALUE (PLACEHOLDER_VALUE.drop 1) y = 0 := by
    apply countStarts_zero
    intro i hi
    rw [List.drop_drop]
    rw [List.length_drop, token_length] at hi
    exact countStarts_inside_token y _ (by omega) (by omega)
  conv_lhs => rw [hsplit]
  rw [countStarts_cons, ← hsplit]
  have e1 : ('P' : Char) :: (PLACEHOLDER_VALUE.drop 1 ++ y) = PLACEHOLDER_VALUE ++ y := by
    rw [← List.cons_append, ← hsplit]
  rw [e1, startsWithL_self_append, if_pos rfl, hzero]

theorem countOccs_zero_no_start (pat : List Char) (hp : pat ≠ []) (s : List Char) :
    countOccs pat s = 0 → ∀ i, startsWithL pat (s.drop i) = false := by
  induction s with
  | nil =>
    intro _ i
    cases pat with
    | nil => exact absurd rfl hp
    | cons q qs => simp [startsWithL]
  | cons c cs ih =>
    intro h i
    simp only [countOccs] at h
    cases i with
    | zero =>
      simp only [List.drop_zero]
      by_cases hs : startsWithL pat (c :: cs) = true
      · rw [hs] at h; simp at h
      · revert hs; cases startsWithL pat (c :: cs) <;> simp
    | succ j =>
      simp only [List.drop_succ_cons]
      exact ih (by omega) j

theorem countStarts_litfree (l y : List Char)
    (hfree : countOccs PLACEHOLDER_VALUE l = 0)
    (hy : y = [] ∨ ∃ y2, y = PLACEHOLDER_VALUE ++ y2) :
    countStarts PLACEHOLDER_VALUE l y = 0 := by
  apply countStarts_zero
  intro i hi
  by_contra hcon
  have htr : startsWithL PLACEHOLDER_VALUE ((l.drop i) ++ y) = true := by
    revert hcon; cases startsWithL PLACEHOLDER_VALUE ((l.drop i) ++ y) <;> simp
  have hlen : 0 < (l.drop i).length := by
    rw [List.length_drop]; omega
  by_cases hlong : 17 ≤ (l.drop i).length
  · have hin : startsWithL PLACEHOLDER_VALUE (l.drop i) = true := by
      apply startsWithL_of_append_left (l.drop i) PLACEHOLDER_VALUE y htr
      rw [token_length]; exact hlong
    have := countOccs_zero_no_start PLACEHOLDER_VALUE (by decide) l hfree i
    rw [hin] at this
    exact absurd this (by simp)
  · have hshort : (l.drop i).length < 17 := by omega
    cases hy with
    | inl h0 =>
      subst h0
      rw [List.append_nil] at htr
      have := startsWithL_length_le PLACEHOLDER_VALUE (l.drop i) htr
      rw [token_length] at this
      omega
    | inr hex =>
      obtain ⟨y2, hy2⟩ := hex
      subst hy2
      have hdrop := startsWithL_drop_append (l.drop i) PLACEHOLDER_VALUE
        (PLACEHOLDER_VALUE ++ y2) htr (by rw [token_length]; omega)
      have hsub : startsWithL (PLACEHOLDER_VALUE.drop (l.drop i).length)
          PLACEHOLDER_VALUE = true := by
        apply startsWithL_of_append_left PLACEHOLDER_VALUE _ y2 hdrop
        rw [List.length_drop, token_length]
        omega
      rw [token_border_drop (l.drop i).length hshort (by omega)] at hsub
      exact absurd hsub (by simp)

theorem countOccs_renderOut (ps : List (List Char × List Char)) :
    ∀ l0, countOccs PLACEHOLDER_VALUE l0 = 0 →
      (∀ pr ∈ ps, countOccs PLACEHOLDER_VALUE pr.2 = 0) →
      countOccs PLACEHOLDER_VALUE (renderOut l0 ps) = ps.length := by
  induction ps with
  | nil =>
    intro l0 h0 _
    simpa [renderOut] using h0
  | cons p rest ih =>
    obtain ⟨body, lit⟩ := p
    intro l0 h0 hps
    have e0 : renderOut l0 ((body, lit) :: rest) =
        l0 ++ (PLACEHOLDER_VALUE ++ renderOut lit rest) := by simp [renderOut]
    rw [e0, countOccs_append_eq, countOccs_append_eq]
    rw [countStarts_litfree l0 _ h0 (Or.inr ⟨renderOut lit rest, rfl⟩)]
    rw [countStarts_token]
    rw [ih lit (hps (body, lit) (by simp)) (fun pr hpr => hps pr (by simp [hpr]))]
    simp [Nat.add_comm]

theorem startsWithL_append_ext (p : List Char) :
    ∀ a y, startsWithL p a = true → startsWithL p (a ++ y) = true := by
  induction p with
  | nil => intro a y _; rfl
  | cons q qs ih =>
    intro a y h
    cases a with
    | nil => exact absurd h (by simp [startsWithL])
    | cons c cs =>
      simp only [startsWithL, Bool.and_eq_true] at h
      simp only [List.cons_append, startsWithL, Bool.and_eq_true]
      exact ⟨h.1, ih cs y h.2⟩

theorem countOccs_le_countStarts (pat x : List Char) :
    ∀ y, countOccs pat x ≤ countStarts pat x y := by
  induction x with
  | nil => intro y; simp [countOccs, countStarts]
  | cons c cs ih =>
    intro y
    simp only [countOccs, countStarts]
    by_cases hs : startsWithL pat (c :: cs) = true
    · have := startsWithL_append_ext pat (c :: cs) y hs
      simp only [List.cons_append] at this
      rw [hs, this]
      have := ih y
      simp; omega
    · have h0 : startsWithL pat (c :: cs) = false := by
        revert hs; cases startsWithL pat (c :: cs) <;> simp
      rw [h0]
      have := ih y
      by_cases h2 : startsWithL pat (c :: (cs ++ y)) = true <;> simp [h2] <;> omega

theorem countOccs_le_cons (pat : List Char) (c : Char) (cs : List Char) :
    countOccs pat cs ≤ countOccs pat (c :: cs) := by
  simp only [countOccs]; omega

theorem countOccs_suffix_le (pat : List Char) (x : List Char) :
    ∀ y, countOccs pat y ≤ countOccs pat (x ++ y) := by
  induction x with
  | nil => intro y; simp
  | cons c cs ih =>
    intro y
    calc countOccs pat y ≤ countOccs pat (cs ++ y) := ih y
    _ ≤ countOccs pat (c :: (cs ++ y)) := countOccs_le_cons pat c (cs ++ y)

theorem countOccs_pre_le (pat x : List Char) (y : List Char) :
    countOccs pat x ≤ countOccs pat (x ++ y) := by
  rw [countOccs_append_eq]
  have := countOccs_le_countStarts pat x y
  omega

theorem renderIn_occfree (ps : List (List Char × List Char)) :
    ∀ l0, countOccs PLACEHOLDER_VALUE (renderIn l0 ps) = 0 →
      countOccs PLACEHOLDER_VALUE l0 = 0 ∧
        ∀ pr ∈ ps, countOccs PLACEHOLDER_VALUE pr.2 = 0 := by
  induction ps with
  | nil => intro l0 h; simp only [renderIn] at h; exact ⟨h, by simp⟩
  | cons p rest ih =>
    obtain ⟨body, lit⟩ := p
    intro l0 h
    simp only [renderIn] at h
    have hl0 : countOccs PLACEHOLDER_VALUE l0 = 0 := by
      have := countOccs_pre_le PLACEHOLDER_VALUE l0
        (obrace :: (body ++ cbrace :: renderIn lit rest))
      omega
    have hrec : countOccs PLACEHOLDER_VALUE (renderIn lit rest) = 0 := by
      have h1 := countOccs_suffix_le PLACEHOLDER_VALUE l0
        (obrace :: (body ++ cbrace :: renderIn lit rest))
      have h2 := countOccs_le_cons PLACEHOLDER_VALUE obrace
        (body ++ cbrace :: renderIn lit rest)
      have h3 := countOccs_suffix_le PLACEHOLDER_VALUE body (cbrace :: renderIn lit rest)
      have h4 := countOccs_le_cons PLACEHOLDER_VALUE cbrace (renderIn lit rest)
      omega
    obtain ⟨hlit, hrest⟩ := ih lit hrec
    refine ⟨hl0, ?_⟩
    intro pr hpr
    rcases List.mem_cons.mp hpr with heq | hmem
    · subst heq; exact hlit
    · exact hrest pr hmem

theorem litScan_append (x : List Char) :
    ∀ y pb inStr sc,
      litScan (x ++ y) pb inStr sc =
        (match litScan x pb inStr sc with
         | some t => litScan y t.1 t.2.1 t.2.2
         | none => none) := by
  induction x with
  | nil => intro y pb inStr sc; rfl
  | cons c cs ih =>
    intro y pb inStr sc
    simp only [List.cons_append, litScan]
    by_cases hbr : (!(quoteUpd false pb inStr sc c).1 &&
        (decide (c = obrace) || decide (c = cbrace))) = true
    · rw [if_pos hbr, if_pos hbr]
    · rw [if_neg hbr, if_neg hbr]
      exact ih y _ _ _

theorem litScan_token (pb : Bool) (sc : Char) :
    litScan PLACEHOLDER_VALUE pb false sc = some (false, false, sc) := rfl

theorem litScan_sc_proj (s : List Char) :
    ∀ pb sc1 sc2,
      (litScan s pb false sc1).map (fun t => (t.1, t.2.1)) =
        (litScan s pb false sc2).map (fun t => (t.1, t.2.1)) := by
  induction s with
  | nil => intro pb sc1 sc2; rfl
  | cons c cs ih =>
    intro pb sc1 sc2
    by_cases hq : ((c = '"' || c = squote || (false && c = bquote)) && !pb) = true
    · have e1 : quoteUpd false pb false sc1 c = (true, c) := by
        simp only [quoteUpd, hq, if_pos]; simp
      have e2 : quoteUpd false pb false sc2 c = (true, c) := by
        simp only [quoteUpd, hq, if_pos]; simp
      simp only [litScan, e1, e2]
    · have e1 : quoteUpd false pb false sc1 c = (false, sc1) := by
        simp only [quoteUpd]; rw [if_neg hq]
      have e2 : quoteUpd false pb false sc2 c = (false, sc2) := by
        simp only [quoteUpd]; rw [if_neg hq]
      simp only [litScan, e1, e2]
      by_cases hbr : (!(false : Bool) && (decide (c = obrace) || decide (c = cbrace))) = true
      · rw [if_pos hbr, if_pos hbr]
      · rw [if_neg hbr, if_neg hbr]
        exact ih _ sc1 sc2

theorem renderOut_litScan (ps : List (List Char × List Char)) :
    ∀ l0 pb sc, itemsScan pb sc l0 ps = true →
      ∃ pbF scF, litScan (renderOut l0 ps) pb false sc = some (pbF, false, scF) := by
  induction ps with
  | nil =>
    intro l0 pb sc h
    simp only [itemsScan] at h
    cases hls : litScan l0 pb false sc with
    | none => rw [hls] at h; exact absurd h (by simp)
    | some t =>
      obtain ⟨pbF, inF, scF⟩ := t
      rw [hls] at h
      cases inF with
      | true => exact absurd h (by simp)
      | false => exact ⟨pbF, scF, hls⟩
  | cons p rest ih =>
    obtain ⟨body, lit⟩ := p
    intro l0 pb sc h
    simp only [itemsScan] at h
    cases hls : litScan l0 pb false sc with
    | none => rw [hls] at h; exact absurd h (by simp)
    | some t =>
      obtain ⟨pbF, inF, scF⟩ := t
      rw [hls] at h
      cases inF with
      | true => exact absurd h (by simp)
      | false =>
        have h2 : (match bodyScan body false 1 false scF with
            | some (_, scB) => itemsScan false scB lit rest
            | none => false) = true := h
        cases hbs : bodyScan body false 1 false scF with
        | none => rw [hbs] at h2; exact absurd h2 (by simp)
        | some u =>
          obtain ⟨pbB, scB⟩ := u
          rw [hbs] at h2
          have e0 : renderOut l0 ((body, lit) :: rest) =
              l0 ++ (PLACEHOLDER_VALUE ++ renderOut lit rest) := by simp [renderOut]
          rw [e0]
          rw [litScan_append l0 _ pb false sc, hls]
          simp only
          rw [litScan_append PLACEHOLDER_VALUE _ pbF false scF, litScan_token pbF scF]
          simp only
          obtain ⟨p1, q1, hR⟩ := ih lit false scB h2
          have hmap := litScan_sc_proj (renderOut lit rest) false scB scF
          rw [hR] at hmap
          cases hRF : litScan (renderOut lit rest) false false scF with
          | none => rw [hRF] at hmap; exact absurd hmap (by simp)
          | some t2 =>
            obtain ⟨t21, t22, t23⟩ := t2
            rw [hRF] at hmap
            simp at hmap
            refine ⟨t21, t23, ?_⟩
            rw [hmap.2]

theorem strip_of_litScan (s : List Char) (pbF : Bool) (scF : Char)
    (h : litScan s false false nulc = some (pbF, false, scF)) :
    stripInterpolations s = s := by
  have h2 := stripGo_lit s [] false false nulc pbF scF none 0 [] h
  simp only [List.append_nil, stripGo, List.nil_append, Nat.zero_add] at h2
  rw [stripInterpolations]
  exact h2

/-- Claim C4 (amended): for SQL text made of zero or more well-formed
top-level brace blocks, provided the placeholder token does not already
occur in the input, the number of placeholder tokens occurring in
stripInterpolations of the text equals the number of top-level blocks, and
stripInterpolations is a fixed point on its own output. -/
theorem c4_strip_count_and_fixedpoint (l0 : List Char) (ps : List (List Char × List Char))
    (hwf : itemsScan false nulc l0 ps = true)
    (hfree : countOccs PLACEHOLDER_VALUE (renderIn l0 ps) = 0) :
    countOccs PLACEHOLDER_VALUE (stripInterpolations (renderIn l0 ps)) = ps.length ∧
      stripInterpolations (stripInterpolations (renderIn l0 ps)) =
        stripInterpolations (renderIn l0 ps) := by
  have hout : stripInterpolations (renderIn l0 ps) = renderOut l0 ps := by
    rw [stripInterpolations, stripGo_items ps l0 false nulc none 0 [] hwf]
    simp
  constructor
  · rw [hout]
    have hfrees := renderIn_occfree ps l0 hfree
    exact countOccs_renderOut ps l0 hfrees.1 hfrees.2
  · rw [hout]
    obtain ⟨pbF, scF, hls⟩ := renderOut_litScan ps l0 false nulc hwf
    exact strip_of_litScan _ pbF scF hls

/-- Claim C4 counterexample: the input consisting of the bare placeholder
token is well-formed with zero top-level blocks, yet the output of
stripInterpolations contains one occurrence of the placeholder token, so
the count equality of the claim fails as stated. -/
theorem c4_counterexample :
    itemsScan false nulc PLACEHOLDER_VALUE [] = true ∧
      countOccs PLACEHOLDER_VALUE (stripInterpolations (renderIn PLACEHOLDER_VALUE [])) ≠
        ([] : List (List Char × List Char)).length := by
  decide

/-- Witness for the amended claim C4 at a concrete one-block input. -/
theorem c4_witness :
    (itemsScan false nulc ("SELECT ".data) [(("col").data, (" FROM t").data)] = true ∧
        countOccs PLACEHOLDER_VALUE
          (renderIn ("SELECT ".data) [(("col").data, (" FROM t").data)]) = 0) ∧
      countOccs PLACEHOLDER_VALUE
          (stripInterpolations (renderIn ("SELECT ".data) [(("col").data, (" FROM t").data)])) =
        [(("col").data, (" FROM t").data)].length ∧
      stripInterpolations
          (stripInterpolations (renderIn ("SELECT ".data) [(("col").data, (" FROM t").data)])) =
        stripInterpolations (renderIn ("SELECT ".data) [(("col").data, (" FROM t").data)]) :=
  ⟨⟨by decide, by decide⟩,
    c4_strip_count_and_fixedpoint ("SELECT ".data) [(("col").data, (" FROM t").data)]
      (by decide) (by decide)⟩

/-!
## ParenMatcher (src/src/utils/parenMatcher.ts)
-/

/-- Loop body of `ParenMatcher.findMatchingCloseParen`: walks the text after
the opening parenthesis tracking quoted sub-strings (double quote, single
quote and back-quote) and parenthesis depth; returns the index where the
depth returns to zero. -/
def findMatchingCloseParenGo : List Char → Bool → Int → Bool → Char → Nat → Option Nat
  | [], _, _, _, _, _ => none
  | c :: cs, pb, depth, inStr, sc, i =>
    let u := quoteUpd true pb inStr sc c
    if u.1 then findMatchingCloseParenGo cs (c = bslash) depth u.1 u.2 (i + 1)
    else if c = '(' then findMatchingCloseParenGo cs (c = bslash) (depth + 1) u.1 u.2 (i + 1)
    else if c = ')' then
      if depth - 1 = 0 then some i
      else findMatchingCloseParenGo cs (c = bslash) (depth - 1) u.1 u.2 (i + 1)
    else findMatchingCloseParenGo cs (c = bslash) depth u.1 u.2 (i + 1)

/-- `ParenMatcher.findMatchingCloseParen`; `none` models the source value
-1 (NOT_FOUND). -/
def findMatchingCloseParen (text : List Char) (openPos : Nat) : Option Nat :=
  findMatchingCloseParenGo (text.drop (openPos + 1))
    (text.getD openPos nulc = bslash) 1 false nulc (openPos + 1)

/-- Loop body of `ParenMatcher.isInsideParens`. -/
def isInsideParensGo : List Char → Bool → Int → Bool → Char → Bool
  | [], _, depth, _, _ => decide (0 < depth)
  | c :: cs, pb, depth, inStr, sc =>
    let u := quoteUpd true pb inStr sc c
    let depth1 :=
      if !u.1 then
        if c = '(' then depth + 1
        else if c = ')' then depth - 1
        else depth
      else depth
    isInsideParensGo cs (c = bslash) depth1 u.1 u.2

/-- `ParenMatcher.isInsideParens`: whether the parenthesis depth just
before `position` is positive, quoted sub-strings ignored. -/
def isInsideParens (text : List Char) (position : Nat) : Bool :=
  isInsideParensGo (text.take position) false 0 false nulc

/-- Net parenthesis count of a flagged character list: opening parens
outside quoted sub-strings minus closing parens outside quoted
sub-strings. -/
def parenNet (fl : List (Char × Bool)) : Int :=
  ((fl.filter (fun p => !p.2 && p.1 = '(')).length : Int) -
    ((fl.filter (fun p => !p.2 && p.1 = ')')).length : Int)

theorem parenNet_cons (p : Char × Bool) (fl : List (Char × Bool)) :
    parenNet (p :: fl) =
      (if !p.2 && p.1 = '(' then (1 : Int) else 0) -
        (if !p.2 && p.1 = ')' then (1 : Int) else 0) + parenNet fl := by
  by_cases h1 : !p.2 && p.1 = '(' <;> by_cases h2 : !p.2 && p.1 = ')' <;>
    simp [parenNet, List.filter, h1, h2] <;> omega

theorem findMatchingCloseParenGo_sound (cs : List Char) :
    ∀ pb d inStr sc i j,
      findMatchingCloseParenGo cs pb d inStr sc i = some j →
      i ≤ j ∧ j - i < cs.length ∧
        d + parenNet (scanFlags true (cs.take (j - i + 1)) pb inStr sc) = 0 := by
  induction cs with
  | nil => intro pb d inStr sc i j h; exact absurd h (by simp [findMatchingCloseParenGo])
  | cons c cs ih =>
    intro pb d inStr sc i j h
    rw [findMatchingCloseParenGo] at h
    by_cases hq : (quoteUpd true pb inStr sc c).1 = true
    · rw [if_pos hq] at h
      obtain ⟨h1, h2, h3⟩ := ih _ d _ _ (i + 1) j h
      have hji : i ≤ j := by omega
      refine ⟨hji, by simp [List.length_cons]; omega, ?_⟩
      rw [show j - i + 1 = (j - (i + 1) + 1) + 1 from by omega]
      rw [List.take_succ_cons, scanFlags, parenNet_cons]
      simp only [hq]
      have hnq : (!(true : Bool)) = false := rfl
      simp only [hnq, Bool.false_and, if_false, Bool.false_eq_true]
      rw [hq] at h3
      simp only [sub_zero, zero_add]
      omega
    · have hq2 : (quoteUpd true pb inStr sc c).1 = false := by
        revert hq; cases (quoteUpd true pb inStr sc c).1 <;> simp
      rw [if_neg hq] at h
      by_cases ho : c = '('
      · subst ho
        rw [if_pos rfl] at h
        obtain ⟨h1, h2, h3⟩ := ih _ (d + 1) _ _ (i + 1) j h
        refine ⟨by omega, by simp [List.length_cons]; omega, ?_⟩
        rw [show j - i + 1 = (j - (i + 1) + 1) + 1 from by omega]
        rw [List.take_succ_cons, scanFlags, parenNet_cons]
        rw [hq2] at h3
        simp only [hq2, Bool.not_false, Bool.true_and]
        simp
        omega
      · rw [if_neg ho] at h
        by_cases hc : c = ')'
        · subst hc
          rw [if_pos rfl] at h
          by_cases hz : d - 1 = (0 : Int)
          · rw [if_pos hz] at h
            simp only [Option.some.injEq] at h
            subst h
            refine ⟨Nat.le_refl i, by simp, ?_⟩
            rw [show i - i + 1 = 1 from by omega]
            rw [List.take_succ_cons, List.take_zero, scanFlags, scanFlags, parenNet_cons]
            simp only [hq2, Bool.not_false, Bool.true_and]
            simp [parenNet]
            omega
          · rw [if_neg hz] at h
            obtain ⟨h1, h2, h3⟩ := ih _ (d - 1) _ _ (i + 1) j h
            refine ⟨by omega, by simp [List.length_cons]; omega, ?_⟩
            rw [show j - i + 1 = (j - (i + 1) + 1) + 1 from by omega]
            rw [List.take_succ_cons, scanFlags, parenNet_cons]
            rw [hq2] at h3
            simp only [hq2, Bool.not_false, Bool.true_and]
            simp
            omega
        · rw [if_neg hc] at h
          obtain ⟨h1, h2, h3⟩ := ih _ d _ _ (i + 1) j h
          refine ⟨by omega, by simp [List.length_cons]; omega, ?_⟩
          rw [show j - i + 1 = (j - (i + 1) + 1) + 1 from by omega]
          rw [List.take_succ_cons, scanFlags, parenNet_cons]
          rw [hq2] at h3
          simp only [hq2, Bool.not_false, Bool.true_and]
          simp [ho, hc]
          omega

/-- Balanced parenthesis words: the mathematical matching structure used to
state which closing parenthesis matches an opening one. -/
inductive BalParen : List Char → Prop
  | nil : BalParen []
  | other {c : Char} {w : List Char} : c ≠ '(' → c ≠ ')' → BalParen w → BalParen (c :: w)
  | wrap {w w2 : List Char} : BalParen w → BalParen w2 →
      BalParen ('(' :: (w ++ (')' :: w2)))

/-- A character list free of the three string-delimiter characters. -/
def noQuotes (w : List Char) : Prop :=
  ∀ c ∈ w, c ≠ '"' ∧ c ≠ squote ∧ c ≠ bquote

theorem findMatchingCloseParenGo_balanced {w : List Char} (hw : BalParen w) :
    ∀ (rest : List Char) (pb : Bool) (d : Int) (sc : Char) (i : Nat),
      1 ≤ d → noQuotes w →
      ∃ pb2, findMatchingCloseParenGo (w ++ rest) pb d false sc i =
        findMatchingCloseParenGo rest pb2 d false sc (i + w.length) := by
  induction hw with
  | nil => intro rest pb d sc i _ _; exact ⟨pb, by simp⟩
  | @other c w hco hcc _ ih =>
    intro rest pb d sc i hd hnq
    have hq : quoteUpd true pb false sc c = (false, sc) := by
      obtain ⟨q1, q2, q3⟩ := hnq c (by simp)
      simp [quoteUpd, q1, q2, q3]
    rw [List.cons_append, findMatchingCloseParenGo]
    simp only [hq]
    rw [if_neg (by simp), if_neg hco, if_neg hcc]
    obtain ⟨pb2, hrec⟩ := ih rest (decide (c = bslash)) d sc (i + 1) hd
      (fun x hx => hnq x (by simp [hx]))
    refine ⟨pb2, ?_⟩
    rw [hrec]
    rw [show i + 1 + w.length = i + (c :: w).length from by simp [List.length_cons]; omega]
  | @wrap w w2 _ _ ihw ihw2 =>
    intro rest pb d sc i hd hnq
    have hnqw : noQuotes w := fun x hx => hnq x (by simp [hx])
    have hnqw2 : noQuotes w2 := fun x hx => hnq x (by simp [hx])
    have e0 : ('(' :: (w ++ (')' :: w2))) ++ rest = '(' :: (w ++ (')' :: (w2 ++ rest))) := by
      simp
    rw [e0]
    have step1 : findMatchingCloseParenGo ('(' :: (w ++ (')' :: (w2 ++ rest)))) pb d false sc i =
        findMatchingCloseParenGo (w ++ (')' :: (w2 ++ rest))) false (d + 1) false sc (i + 1) :=
      rfl
    rw [step1]
    obtain ⟨pb2, hrec⟩ := ihw (')' :: (w2 ++ rest)) false (d + 1) sc (i + 1) (by omega) hnqw
    rw [hrec]
    have step2 : findMatchingCloseParenGo (')' :: (w2 ++ rest)) pb2 (d + 1) false sc
        (i + 1 + w.length) =
        if d + 1 - 1 = 0 then some (i + 1 + w.length)
        else findMatchingCloseParenGo (w2 ++ rest) false (d + 1 - 1) false sc
          (i + 1 + w.length + 1) := rfl
    rw [step2, if_neg (show ¬ (d + 1 - 1 = (0 : Int)) from by omega)]
    obtain ⟨pb3, hrec2⟩ := ihw2 rest false (d + 1 - 1) sc (i + 1 + w.length + 1)
      (by omega) hnqw2
    rw [hrec2]
    refine ⟨pb3, ?_⟩
    rw [show d + 1 - 1 = d from by omega]
    rw [show i + 1 + w.length + 1 + w2.length = i + ('(' :: (w ++ (')' :: w2))).length from by
      simp [List.length_cons, List.length_append]; omega]

theorem quoteUpd_nonquote (wbt pb inStr : Bool) (sc c : Char)
    (h1 : c ≠ '"') (h2 : c ≠ squote) (h3 : c ≠ bquote) :
    quoteUpd wbt pb inStr sc c = (inStr, sc) := by
  simp [quoteUpd, h1, h2, h3]

theorem getD_drop_eq (l : List Char) : ∀ m k, (l.drop m).getD k nulc = l.getD (m + k) nulc := by
  induction l with
  | nil => intro m k; simp
  | cons x xs ih =>
    intro m k
    cases m with
    | zero => simp
    | succ m' =>
      simp only [List.drop_succ_cons]
      rw [ih m' k, show m' + 1 + k = (m' + k) + 1 from by omega]
      rfl

theorem getD_set_ne (l : List Char) (p q : Nat) (c : Char) (h : p ≠ q) :
    (l.set p c).getD q nulc = l.getD q nulc := by
  rw [List.getD_eq_getD_get?, List.getD_eq_getD_get?, List.get?_set_ne c l h]

theorem drop_set_ge (l : List Char) : ∀ (p m : Nat) (c : Char), m ≤ p →
    (l.set p c).drop m = (l.drop m).set (p - m) c := by
  induction l with
  | nil => intro p m c _; simp
  | cons x xs ih =>
    intro p m c hmp
    cases m with
    | zero => simp
    | succ m' =>
      cases p with
      | zero => omega
      | succ p' =>
        have e1 : (x :: xs).set (p' + 1) c = x :: xs.set p' c := rfl
        rw [e1]
        simp only [List.drop_succ_cons]
        rw [ih p' m' c (by omega), show p' + 1 - (m' + 1) = p' - m' from by omega]

theorem findMatchingCloseParenGo_set (cs : List Char) :
    ∀ (k : Nat) (cNew : Char) (pb : Bool) (d : Int) (inStr : Bool) (sc : Char) (i : Nat),
      k < cs.length →
      ((scanFlags true cs pb inStr sc).getD k (nulc, false)).2 = true →
      (cs.getD k nulc = '(' ∨ cs.getD k nulc = ')') →
      (cNew = '(' ∨ cNew = ')') →
      findMatchingCloseParenGo (cs.set k cNew) pb d inStr sc i =
        findMatchingCloseParenGo cs pb d inStr sc i := by
  induction cs with
  | nil => intro k cNew pb d inStr sc i hk; simp at hk
  | cons c cs ih =>
    intro k cNew pb d inStr sc i hk hflag hold hnew
    cases k with
    | zero =>
      have hc : c = '(' ∨ c = ')' := by simpa using hold
      have hqc : quoteUpd true pb inStr sc c = (inStr, sc) := by
        rcases hc with h | h <;> subst h <;>
          exact quoteUpd_nonquote true pb inStr sc _ (by decide) (by decide) (by decide)
      have hstr : inStr = true := by
        simp only [scanFlags, hqc] at hflag
        simpa using hflag
      have hqn : quoteUpd true pb inStr sc cNew = (inStr, sc) := by
        rcases hnew with h | h <;> subst h <;>
          exact quoteUpd_nonquote true pb inStr sc _ (by decide) (by decide) (by decide)
      have e1 : (c :: cs).set 0 cNew = cNew :: cs := rfl
      have hbn : (decide (cNew = bslash)) = false := by
        rcases hnew with h | h <;> subst h <;> decide
      have hbo : (decide (c = bslash)) = false := by
        rcases hc with h | h <;> subst h <;> decide
      subst hstr
      rw [e1, findMatchingCloseParenGo, findMatchingCloseParenGo]
      simp [hqc, hqn, hbn, hbo]
    | succ k' =>
      have e1 : (c :: cs).set (k' + 1) cNew = c :: cs.set k' cNew := rfl
      have hflag' : ((scanFlags true cs (decide (c = bslash)) (quoteUpd true pb inStr sc c).1
          (quoteUpd true pb inStr sc c).2).getD k' (nulc, false)).2 = true := by
        simpa [scanFlags] using hflag
      have hold' : cs.getD k' nulc = '(' ∨ cs.getD k' nulc = ')' := by
        simpa using hold
      have hk' : k' < cs.length := by simpa using hk
      rw [e1, findMatchingCloseParenGo, findMatchingCloseParenGo]
      by_cases hq : (quoteUpd true pb inStr sc c).1 = true
      · rw [if_pos hq, if_pos hq]
        exact ih k' cNew _ d _ _ (i + 1) hk' hflag' hold' hnew
      · rw [if_neg hq, if_neg hq]
        by_cases ho : c = '('
        · rw [if_pos ho, if_pos ho]
          exact ih k' cNew _ (d + 1) _ _ (i + 1) hk' hflag' hold' hnew
        · rw [if_neg ho, if_neg ho]
          by_cases hcc : c = ')'
          · rw [if_pos hcc, if_pos hcc]
            by_cases hz : d - 1 = (0 : Int)
            · rw [if_pos hz, if_pos hz]
            · rw [if_neg hz, if_neg hz]
              exact ih k' cNew _ (d - 1) _ _ (i + 1) hk' hflag' hold' hnew
          · rw [if_neg hcc, if_neg hcc]
            exact ih k' cNew _ d _ _ (i + 1) hk' hflag' hold' hnew

/-- Claim C6: (a) whenever the text after an opening parenthesis is a
balanced quote-free parenthesis word followed by the matching closing
parenthesis, findMatchingCloseParen returns exactly the index of that
mathematically matching closing parenthesis; (b) whenever the parentheses
after the opening position never bring the depth back to zero, it returns
none, the model of NOT_FOUND; (c) a parenthesis occurring inside a quoted
sub-string never affects the nesting depth computed outside the string:
replacing it by the other parenthesis leaves the result unchanged. -/
theorem c6_findMatchingCloseParen_correct :
    (∀ (text w rest : List Char) (openPos : Nat),
        text.getD openPos nulc = '(' →
        text.drop (openPos + 1) = w ++ (')' :: rest) →
        BalParen w → noQuotes w →
        findMatchingCloseParen text openPos = some (openPos + 1 + w.length)) ∧
      (∀ (text : List Char) (openPos : Nat),
        (∀ j, j < text.length → openPos < j →
          1 + parenNet (scanFlags true ((text.drop (openPos + 1)).take (j - openPos))
            (text.getD openPos nulc = bslash) false nulc) ≠ 0) →
        findMatchingCloseParen text openPos = none) ∧
      (∀ (text : List Char) (openPos p : Nat) (cNew : Char),
        openPos < p → p - (openPos + 1) < (text.drop (openPos + 1)).length →
        ((scanFlags true (text.drop (openPos + 1)) (text.getD openPos nulc = bslash)
            false nulc).getD (p - (openPos + 1)) (nulc, false)).2 = true →
        (text.getD p nulc = '(' ∨ text.getD p nulc = ')') →
        (cNew = '(' ∨ cNew = ')') →
        findMatchingCloseParen (text.set p cNew) openPos =
          findMatchingCloseParen text openPos) := by
  refine ⟨?_, ?_, ?_⟩
  · intro text w rest openPos hopen hdrop hbal hnq
    rw [findMatchingCloseParen, hopen, hdrop]
    obtain ⟨pb2, hrec⟩ := findMatchingCloseParenGo_balanced hbal (')' :: rest)
      (decide ('(' = bslash)) 1 nulc (openPos + 1) (by omega) hnq
    rw [hrec]
    rfl
  · intro text openPos hnet
    cases hres : findMatchingCloseParen text openPos with
    | none => rfl
    | some j =>
      exfalso
      rw [findMatchingCloseParen] at hres
      obtain ⟨h1, h2, h3⟩ := findMatchingCloseParenGo_sound _ _ _ _ _ _ _ hres
      rw [List.length_drop] at h2
      refine hnet j (by omega) (by omega) ?_
      rw [show j - openPos = j - (openPos + 1) + 1 from by omega]
      exact h3
  · intro text openPos p cNew hop hlen hflag hold hnew
    rw [findMatchingCloseParen, findMatchingCloseParen]
    rw [getD_set_ne text p openPos cNew (by omega)]
    rw [drop_set_ge text p (openPos + 1) cNew (by omega)]
    apply findMatchingCloseParenGo_set _ _ _ _ _ _ _ _ hlen hflag ?_ hnew
    rw [getD_drop_eq text (openPos + 1) (p - (openPos + 1)),
      show openPos + 1 + (p - (openPos + 1)) = p from by omega]
    exact hold

/-- Witness for claim C6 at concrete inputs: a balanced nested call text, an
unbalanced text, and a text with a parenthesis inside a quoted sub-string. -/
theorem c6_witness :
    findMatchingCloseParen ("(ab(c))x".data) 0 = some 6 ∧
      findMatchingCloseParen ("(ab".data) 0 = none ∧
      findMatchingCloseParen (("(a\"(\"b)".data).set 3 ')') 0 =
        findMatchingCloseParen ("(a\"(\"b)".data) 0 :=
  ⟨by
    have h := c6_findMatchingCloseParen_correct.1 ("(ab(c))x".data)
      ['a', 'b', '(', 'c', ')'] ("x".data) 0 (by decide) (by decide)
      (BalParen.other (by decide) (by decide) (BalParen.other (by decide) (by decide)
        (BalParen.wrap (BalParen.other (by decide) (by decide) BalParen.nil) BalParen.nil)))
      (by unfold noQuotes; decide)
    simpa using h,
   by
    refine c6_findMatchingCloseParen_correct.2.1 ("(ab".data) 0 ?_
    decide,
   c6_findMatchingCloseParen_correct.2.2 ("(a\"(\"b)".data) 0 3 ')' (by decide) (by decide)
     (by decide) (by decide) (by decide)⟩

/-!
## Document model (the host-editor collaborator interface)
-/

/-- A line/character location in a document. -/
structure VSPosition where
  line : Nat
  character : Nat
deriving DecidableEq

/-- A span between two positions; `stop` models the source field `end`,
which is a reserved word here. -/
structure VSRange where
  start : VSPosition
  stop : VSPosition
deriving DecidableEq

/-- A read-only view of an editor document: an identity, a version token
and the text as a list of lines. -/
structure VSDocument where
  uri : String
  version : Nat
  lines : List (List Char)

/-- `document.lineAt(n).text`. -/
def lineAt (doc : VSDocument) (n : Nat) : List Char := doc.lines.getD n []

/-- `document.lineCount`. -/
def lineCount (doc : VSDocument) : Nat := doc.lines.length

/-- `Position.isBefore`: strict lexicographic order on positions. -/
def posLt (p q : VSPosition) : Bool :=
  p.line < q.line || (p.line = q.line && p.character < q.character)

/-- `Position.isAfterOrEqual` of the other argument: lexicographic order. -/
def posLe (p q : VSPosition) : Bool :=
  p.line < q.line || (p.line = q.line && p.character ≤ q.character)

/-- Text of the lines strictly between the range ends followed by the last
line cut at the closing character, newline separated. -/
def getTextTail (stopChar : Nat) : List (List Char) → List Char
  | [] => []
  | [l] => l.take stopChar
  | l :: rest => l ++ '\n' :: getTextTail stopChar rest

/-- `document.getText(range)`. -/
def getTextRange (doc : VSDocument) (r : VSRange) : List Char :=
  if r.start.line = r.stop.line then
    ((lineAt doc r.start.line).take r.stop.character).drop r.start.character
  else
    ((lineAt doc r.start.line).drop r.start.character) ++
      '\n' :: getTextTail r.stop.character
        ((doc.lines.drop (r.start.line + 1)).take (r.stop.line - r.start.line))

/-- The character of the document at a position (null past the ends). -/
def charAtPos (doc : VSDocument) (p : VSPosition) : Char :=
  (lineAt doc p.line).getD p.character nulc

/-- Whether the character right before this position on its line is a
backslash (the escape test applied throughout the source). -/
def escAtPos (doc : VSDocument) (p : VSPosition) : Prop :=
  0 < p.character ∧ (lineAt doc p.line).getD (p.character - 1) nulc = bslash

/-!
## SQLStringDetector.getStringRangeAtPosition (src/src/sqlStringDetector.ts)
-/

/-- One of the three string delimiter characters. -/
def isQuote3 (c : Char) : Bool := c = '"' || c = squote || c = bquote

/-- Backward search from the cursor for the nearest unescaped quote on the
line (the opening-quote loop of getStringRangeAtPosition). -/
def findOpenQuote (lineText : List Char) : Nat → Option (Nat × Char)
  | 0 =>
    if isQuote3 (lineText.getD 0 nulc) then some (0, lineText.getD 0 nulc) else none
  | i + 1 =>
    if isQuote3 (lineText.getD (i + 1) nulc) then
      if lineText.getD i nulc = bslash then findOpenQuote lineText i
      else some (i + 1, lineText.getD (i + 1) nulc)
    else findOpenQuote lineText i

/-- Forward search inside one line for the first unescaped occurrence of
the quote character (the inner loop of getStringRangeAtPosition). -/
def findCloseGo (qc : Char) : List Char → Bool → Nat → Option Nat
  | [], _, _ => none
  | c :: cs, pb, j =>
    if c = qc then
      if pb then findCloseGo qc cs (c = bslash) (j + 1)
      else some j
    else findCloseGo qc cs (c = bslash) (j + 1)

/-- Per-line closing-quote search starting unescaped at the line start. -/
def findCloseInLine (qc : Char) (s : List Char) : Option Nat :=
  findCloseGo qc s false 0

/-- The line-by-line forward search of getStringRangeAtPosition over the
remaining document lines. -/
def findCloseLinesGo (qc : Char) : List (List Char) → Nat → Option (Nat × Nat)
  | [], _ => none
  | l :: rest, ln =>
    match findCloseInLine qc l with
    | some j => some (ln, j)
    | none => findCloseLinesGo qc rest (ln + 1)

/-- `SQLStringDetector.getStringRangeAtPosition`: the range of the string
literal at the cursor, or none. -/
def getStringRangeAtPosition (doc : VSDocument) (pos : VSPosition) : Option VSRange :=
  let lineText := lineAt doc pos.line
  match findOpenQuote lineText pos.character with
  | none => none
  | some (oq, qc) =>
    match findCloseInLine qc (lineText.drop (oq + 1)) with
    | some j => some ⟨⟨pos.line, oq + 1⟩, ⟨pos.line, oq + 1 + j⟩⟩
    | none =>
      match findCloseLinesGo qc (doc.lines.drop (pos.line + 1)) (pos.line + 1) with
      | some (ln, j) => some ⟨⟨pos.line, oq + 1⟩, ⟨ln, j⟩⟩
      | none => none

/-- An unescaped occurrence of the quote `qc` at relative index `k` of a
line suffix `s`, where `pb` tells whether the character just before the
suffix is a backslash. -/
def closeHit (qc : Char) (s : List Char) (pb : Bool) (k : Nat) : Prop :=
  s.getD k nulc = qc ∧
    ¬((0 < k ∧ s.getD (k - 1) nulc = bslash) ∨ (k = 0 ∧ pb = true))

theorem findOpenQuote_none (lineText : List Char) :
    ∀ i, (∀ k, k ≤ i →
        ¬(isQuote3 (lineText.getD k nulc) = true ∧
          ¬(0 < k ∧ lineText.getD (k - 1) nulc = bslash))) →
      findOpenQuote lineText i = none := by
  intro i
  induction i with
  | zero =>
    intro h
    rw [findOpenQuote]
    rw [if_neg ?_]
    intro hq
    exact h 0 (by omega) ⟨hq, by omega⟩
  | succ i ih =>
    intro h
    rw [findOpenQuote]
    by_cases hq : isQuote3 (lineText.getD (i + 1) nulc) = true
    · rw [if_pos hq]
      by_cases hesc : lineText.getD i nulc = bslash
      · rw [if_pos hesc]
        exact ih (fun k hk => h k (by omega))
      · exact absurd ⟨hq, by simpa using hesc⟩ (h (i + 1) (by omega))
    · rw [if_neg hq]
      exact ih (fun k hk => h k (by omega))

theorem findOpenQuote_some (lineText : List Char) :
    ∀ i oq qc, findOpenQuote lineText i = some (oq, qc) →
      oq ≤ i ∧ lineText.getD oq nulc = qc ∧ isQuote3 qc = true ∧
        ¬(0 < oq ∧ lineText.getD (oq - 1) nulc = bslash) := by
  intro i
  induction i with
  | zero =>
    intro oq qc h
    rw [findOpenQuote] at h
    by_cases hq : isQuote3 (lineText.getD 0 nulc) = true
    · rw [if_pos hq] at h
      simp only [Option.some.injEq, Prod.mk.injEq] at h
      obtain ⟨h1, h2⟩ := h
      subst h1; subst h2
      exact ⟨Nat.le_refl 0, rfl, hq, by omega⟩
    · rw [if_neg hq] at h; exact absurd h (by simp)
  | succ i ih =>
    intro oq qc h
    rw [findOpenQuote] at h
    by_cases hq : isQuote3 (lineText.getD (i + 1) nulc) = true
    · rw [if_pos hq] at h
      by_cases hesc : lineText.getD i nulc = bslash
      · rw [if_pos hesc] at h
        obtain ⟨h1, h2, h3, h4⟩ := ih oq qc h
        exact ⟨by omega, h2, h3, h4⟩
      · rw [if_neg hesc] at h
        simp only [Option.some.injEq, Prod.mk.injEq] at h
        obtain ⟨h1, h2⟩ := h
        subst h1; subst h2
        refine ⟨Nat.le_refl _, rfl, hq, ?_⟩
        intro hcon
        exact hesc (by simpa using hcon.2)
    · rw [if_neg hq] at h
      obtain ⟨h1, h2, h3, h4⟩ := ih oq qc h
      exact ⟨by omega, h2, h3, h4⟩

theorem closeHit_cons (qc c : Char) (cs : List Char) (pb : Bool) (k : Nat) :
    closeHit qc (c :: cs) pb (k + 1) ↔ closeHit qc cs (decide (c = bslash)) k := by
  cases k with
  | zero =>
    simp only [closeHit, List.getD_cons_succ, List.getD_cons_zero]
    constructor
    · rintro ⟨h1, h2⟩
      refine ⟨h1, ?_⟩
      rintro (⟨hk, _⟩ | ⟨_, hb⟩)
      · omega
      · exact h2 (Or.inl ⟨by omega, by simpa using hb⟩)
    · rintro ⟨h1, h2⟩
      refine ⟨h1, ?_⟩
      rintro (⟨_, hb⟩ | ⟨hk, _⟩)
      · exact h2 (Or.inr ⟨by simp, by simpa using hb⟩)
      · omega
  | succ k' =>
    simp only [closeHit, List.getD_cons_succ]
    constructor
    · rintro ⟨h1, h2⟩
      refine ⟨h1, ?_⟩
      rintro (⟨hk, hb⟩ | ⟨hk, _⟩)
      · refine h2 (Or.inl ⟨by omega, ?_⟩)
        rw [show k' + 1 + 1 - 1 = (k' + 1 - 1) + 1 from by omega, List.getD_cons_succ]
        exact hb
      · omega
    · rintro ⟨h1, h2⟩
      refine ⟨h1, ?_⟩
      rintro (⟨hk, hb⟩ | ⟨hk, _⟩)
      · refine h2 (Or.inl ⟨by omega, ?_⟩)
        rw [show k' + 1 + 1 - 1 = (k' + 1 - 1) + 1 from by omega, List.getD_cons_succ] at hb
        exact hb
      · omega

theorem findCloseGo_none_sound (qc : Char) (s : List Char) :
    ∀ pb j0, findCloseGo qc s pb j0 = none →
      ∀ k, k < s.length → ¬ closeHit qc s pb k := by
  induction s with
  | nil => intro pb j0 _ k hk; simp at hk
  | cons c cs ih =>
    intro pb j0 h k hk
    rw [findCloseGo] at h
    by_cases hcq : c = qc
    · rw [if_pos hcq] at h
      by_cases hpb : pb = true
      · rw [if_pos hpb] at h
        cases k with
        | zero =>
          rintro ⟨_, h2⟩
          exact h2 (Or.inr ⟨rfl, hpb⟩)
        | succ k' =>
          rw [closeHit_cons]
          exact ih _ _ h k' (by simpa using hk)
      · rw [if_neg hpb] at h; exact absurd h (by simp)
    · rw [if_neg hcq] at h
      cases k with
      | zero =>
        rintro ⟨h1, _⟩
        exact hcq (by simpa using h1)
      | succ k' =>
        rw [closeHit_cons]
        exact ih _ _ h k' (by simpa using hk)

theorem findCloseGo_some_sound (qc : Char) (s : List Char) :
    ∀ pb j0 j, findCloseGo qc s pb j0 = some j →
      j0 ≤ j ∧ j - j0 < s.length ∧ closeHit qc s pb (j - j0) ∧
        ∀ k, k < j - j0 → ¬ closeHit qc s pb k := by
  induction s with
  | nil => intro pb j0 j h; exact absurd h (by simp [findCloseGo])
  | cons c cs ih =>
    intro pb j0 j h
    rw [findCloseGo] at h
    by_cases hcq : c = qc
    · rw [if_pos hcq] at h
      by_cases hpb : pb = true
      · rw [if_pos hpb] at h
        obtain ⟨h1, h2, h3, h4⟩ := ih _ _ _ h
        refine ⟨by omega, by simp; omega, ?_, ?_⟩
        · rw [show j - j0 = (j - (j0 + 1)) + 1 from by omega, closeHit_cons]
          exact h3
        · intro k hk
          cases k with
          | zero =>
            rintro ⟨_, hno⟩
            exact hno (Or.inr ⟨rfl, hpb⟩)
          | succ k' =>
            rw [closeHit_cons]
            exact h4 k' (by omega)
      · rw [if_neg hpb] at h
        simp only [Option.some.injEq] at h
        subst h
        refine ⟨Nat.le_refl _, by simp, ?_, by intro k hk; omega⟩
        rw [Nat.sub_self]
        refine ⟨by simpa using hcq, ?_⟩
        rintro (⟨hk, _⟩ | ⟨_, hb⟩)
        · omega
        · exact hpb hb
    · rw [if_neg hcq] at h
      obtain ⟨h1, h2, h3, h4⟩ := ih _ _ _ h
      refine ⟨by omega, by simp; omega, ?_, ?_⟩
      · rw [show j - j0 = (j - (j0 + 1)) + 1 from by omega, closeHit_cons]
        exact h3
      · intro k hk
        cases k with
        | zero =>
          rintro ⟨hc0, _⟩
          exact hcq (by simpa using hc0)
        | succ k' =>
          rw [closeHit_cons]
          exact h4 k' (by omega)

theorem getD_drop_any {α : Type} (d : α) (l : List α) :
    ∀ m k, (l.drop m).getD k d = l.getD (m + k) d := by
  induction l with
  | nil => intro m k; simp
  | cons x xs ih =>
    intro m k
    cases m with
    | zero => simp
    | succ m' =>
      simp only [List.drop_succ_cons]
      rw [ih m' k, show m' + 1 + k = (m' + k) + 1 from by omega]
      rfl

theorem findCloseLinesGo_some (qc : Char) (ls : List (List Char)) :
    ∀ ln0 ln j, findCloseLinesGo qc ls ln0 = some (ln, j) →
      ln0 ≤ ln ∧ ln - ln0 < ls.length ∧
        findCloseInLine qc (ls.getD (ln - ln0) []) = some j ∧
        ∀ m, m < ln - ln0 → findCloseInLine qc (ls.getD m []) = none := by
  induction ls with
  | nil => intro ln0 ln j h; exact absurd h (by simp [findCloseLinesGo])
  | cons l rest ih =>
    intro ln0 ln j h
    rw [findCloseLinesGo] at h
    cases hc : findCloseInLine qc l with
    | some j' =>
      rw [hc] at h
      simp only [Option.some.injEq, Prod.mk.injEq] at h
      obtain ⟨h1, h2⟩ := h
      subst h1; subst h2
      refine ⟨Nat.le_refl _, by simp, ?_, by intro m hm; omega⟩
      rw [Nat.sub_self]
      simpa using hc
    | none =>
      rw [hc] at h
      obtain ⟨h1, h2, h3, h4⟩ := ih _ _ _ h
      refine ⟨by omega, by simp; omega, ?_, ?_⟩
      · rw [show ln - ln0 = (ln - (ln0 + 1)) + 1 from by omega]
        simpa using h3
      · intro m hm
        cases m with
        | zero => simpa using hc
        | succ m' =>
          have := h4 m' (by omega)
          simpa using this

theorem findCloseLinesGo_none (qc : Char) (ls : List (List Char)) :
    ∀ ln0, findCloseLinesGo qc ls ln0 = none →
      ∀ m, m < ls.length → findCloseInLine qc (ls.getD m []) = none := by
  induction ls with
  | nil => intro ln0 _ m hm; simp at hm
  | cons l rest ih =>
    intro ln0 h m hm
    rw [findCloseLinesGo] at h
    cases hc : findCloseInLine qc l with
    | some j' => rw [hc] at h; exact absurd h (by simp)
    | none =>
      rw [hc] at h
      cases m with
      | zero => simpa using hc
      | succ m' =>
        have := ih _ h m' (by simpa using hm)
        simpa using this

theorem isQuote3_ne_bslash (c : Char) (h : isQuote3 c = true) : c ≠ bslash := by
  simp only [isQuote3, Bool.or_eq_true, decide_eq_true_eq] at h
  rcases h with (h | h) | h <;> subst h <;> decide

theorem isQuote3_ne_nulc (c : Char) (h : isQuote3 c = true) : c ≠ nulc := by
  simp only [isQuote3, Bool.or_eq_true, decide_eq_true_eq] at h
  rcases h with (h | h) | h <;> subst h <;> decide

theorem closeHit_abs (doc : VSDocument) (L off k : Nat) (qc : Char)
    (hoff : off = 0 ∨ (lineAt doc L).getD (off - 1) nulc ≠ bslash) :
    closeHit qc ((lineAt doc L).drop off) false k ↔
      (charAtPos doc ⟨L, off + k⟩ = qc ∧ ¬ escAtPos doc ⟨L, off + k⟩) := by
  unfold closeHit charAtPos escAtPos
  rw [getD_drop_any nulc (lineAt doc L) off k]
  constructor
  · rintro ⟨h1, h2⟩
    refine ⟨h1, ?_⟩
    rintro ⟨hpos, hb⟩
    simp only at hpos hb
    cases k with
    | zero =>
      rcases hoff with h0 | hne
      · omega
      · rw [show off + 0 - 1 = off - 1 from by omega] at hb
        exact hne hb
    | succ k' =>
      refine h2 (Or.inl ⟨by omega, ?_⟩)
      rw [getD_drop_any nulc (lineAt doc L) off (k' + 1 - 1),
        show off + (k' + 1 - 1) = off + (k' + 1) - 1 from by omega]
      exact hb
  · rintro ⟨h1, h2⟩
    refine ⟨h1, ?_⟩
    rintro (⟨hk, hb⟩ | ⟨hk, hpb⟩)
    · refine h2 ⟨?_, ?_⟩
      · show 0 < off + k
        omega
      · show (lineAt doc L).getD (off + k - 1) nulc = bslash
        rw [getD_drop_any nulc (lineAt doc L) off (k - 1),
          show off + (k - 1) = off + k - 1 from by omega] at hb
        exact hb
    · exact absurd hpb (by simp)

theorem line_no_hit (doc : VSDocument) (L off : Nat) (qc : Char)
    (hq3 : isQuote3 qc = true)
    (hoff : off = 0 ∨ (lineAt doc L).getD (off - 1) nulc ≠ bslash)
    (hnone : ∀ k, k < ((lineAt doc L).drop off).length →
      ¬ closeHit qc ((lineAt doc L).drop off) false k) :
    ∀ c', off ≤ c' → ¬(charAtPos doc ⟨L, c'⟩ = qc ∧ ¬ escAtPos doc ⟨L, c'⟩) := by
  intro c' hc' hcon
  by_cases hk : c' - off < ((lineAt doc L).drop off).length
  · have heq := closeHit_abs doc L off (c' - off) qc hoff
    rw [show off + (c' - off) = c' from by omega] at heq
    exact hnone (c' - off) hk (heq.mpr hcon)
  · have hlen : (lineAt doc L).length ≤ c' := by
      rw [List.length_drop] at hk; omega
    have hnul : charAtPos doc ⟨L, c'⟩ = nulc := by
      unfold charAtPos
      exact List.getD_eq_default _ _ hlen
    rw [hnul] at hcon
    exact (isQuote3_ne_nulc qc hq3) hcon.1.symm

/-- Claim C8: getStringRangeAtPosition (1) returns none when no unescaped
quote character occurs on the cursor line at or before the cursor;
(2) returns none when the opening quote it finds has no unescaped closing
quote of the same character anywhere before the document end; and
(3) otherwise returns the range spanning strictly between the two
delimiters, exclusive of both quote characters: its start is just after
the opening quote, its end sits exactly on the first unescaped closing
quote, and no unescaped closing quote occurs strictly inside the range. -/
theorem c8_getStringRangeAtPosition_correct :
    (∀ (doc : VSDocument) (pos : VSPosition),
        (∀ k, k ≤ pos.character →
          ¬(isQuote3 ((lineAt doc pos.line).getD k nulc) = true ∧
            ¬(0 < k ∧ (lineAt doc pos.line).getD (k - 1) nulc = bslash))) →
        getStringRangeAtPosition doc pos = none) ∧
      (∀ (doc : VSDocument) (pos : VSPosition) (oq : Nat) (qc : Char),
        findOpenQuote (lineAt doc pos.line) pos.character = some (oq, qc) →
        (∀ p : VSPosition, pos.line ≤ p.line → p.line < lineCount doc →
          (p.line = pos.line → oq < p.character) →
          ¬(charAtPos doc p = qc ∧ ¬ escAtPos doc p)) →
        getStringRangeAtPosition doc pos = none) ∧
      (∀ (doc : VSDocument) (pos : VSPosition) (r : VSRange),
        getStringRangeAtPosition doc pos = some r →
        ∃ oq qc, findOpenQuote (lineAt doc pos.line) pos.character = some (oq, qc) ∧
          charAtPos doc ⟨pos.line, oq⟩ = qc ∧ isQuote3 qc = true ∧
          r.start = ⟨pos.line, oq + 1⟩ ∧
          charAtPos doc r.stop = qc ∧ ¬ escAtPos doc r.stop ∧
          posLe r.start r.stop = true ∧
          ∀ p : VSPosition, posLe r.start p = true → posLt p r.stop = true →
            ¬(charAtPos doc p = qc ∧ ¬ escAtPos doc p)) := by
  refine ⟨?_, ?_, ?_⟩
  · intro doc pos h
    simp only [getStringRangeAtPosition]
    rw [findOpenQuote_none (lineAt doc pos.line) pos.character h]
  · intro doc pos oq qc hopen hno
    obtain ⟨hle, hchar, hq3, hunesc⟩ := findOpenQuote_some (lineAt doc pos.line) _ _ _ hopen
    have hqb : qc ≠ bslash := isQuote3_ne_bslash qc hq3
    have hoff1 : (oq + 1) = 0 ∨ (lineAt doc pos.line).getD (oq + 1 - 1) nulc ≠ bslash := by
      right
      rw [show oq + 1 - 1 = oq from rfl, hchar]
      exact hqb
    simp only [getStringRangeAtPosition, hopen]
    cases hc1 : findCloseInLine qc ((lineAt doc pos.line).drop (oq + 1)) with
    | some j =>
      exfalso
      obtain ⟨_, hlt, hhit, _⟩ := findCloseGo_some_sound qc _ false 0 j hc1
      rw [Nat.sub_zero] at hlt hhit
      have hlc : pos.line < lineCount doc := by
        by_contra hcon
        have : lineAt doc pos.line = [] := by
          unfold lineAt
          exact List.getD_eq_default _ _ (by unfold lineCount at hcon; omega)
        rw [this] at hlt
        simp at hlt
      rw [closeHit_abs doc pos.line (oq + 1) j qc hoff1] at hhit
      exact hno ⟨pos.line, oq + 1 + j⟩ (by simp) hlc (fun _ => by simp; omega) hhit
    | none =>
      cases hc2 : findCloseLinesGo qc (doc.lines.drop (pos.line + 1)) (pos.line + 1) with
      | some lj =>
        exfalso
        obtain ⟨ln, j⟩ := lj
        obtain ⟨hln0, hlnlt, hline, _⟩ := findCloseLinesGo_some qc _ _ ln j hc2
        have hL : (doc.lines.drop (pos.line + 1)).getD (ln - (pos.line + 1)) [] =
            lineAt doc ln := by
          rw [getD_drop_any [] doc.lines (pos.line + 1) (ln - (pos.line + 1)),
            show pos.line + 1 + (ln - (pos.line + 1)) = ln from by omega]
          rfl
        rw [hL] at hline
        obtain ⟨_, hjlt, hhit, _⟩ := findCloseGo_some_sound qc _ false 0 j hline
        rw [Nat.sub_zero] at hjlt hhit
        have hhit0 : closeHit qc ((lineAt doc ln).drop 0) false j := by
          rw [List.drop_zero]
          exact hhit
        rw [closeHit_abs doc ln 0 j qc (Or.inl rfl)] at hhit0
        rw [List.length_drop] at hlnlt
        refine hno ⟨ln, 0 + j⟩ (by simp; omega) (by unfold lineCount; simp; omega)
          (fun heq => by simp at heq; omega) hhit0
      | none => rfl
  · intro doc pos r hres
    simp only [getStringRangeAtPosition] at hres
    cases hopen : findOpenQuote (lineAt doc pos.line) pos.character with
    | none => rw [hopen] at hres; exact absurd hres (by simp)
    | some t =>
      obtain ⟨oq, qc⟩ := t
      simp only [hopen] at hres
      obtain ⟨hle, hchar, hq3, hunesc⟩ := findOpenQuote_some (lineAt doc pos.line) _ _ _ hopen
      have hqb : qc ≠ bslash := isQuote3_ne_bslash qc hq3
      have hoff1 : (oq + 1) = 0 ∨ (lineAt doc pos.line).getD (oq + 1 - 1) nulc ≠ bslash := by
        right
        rw [show oq + 1 - 1 = oq from rfl, hchar]
        exact hqb
      cases hc1 : findCloseInLine qc ((lineAt doc pos.line).drop (oq + 1)) with
      | some j =>
        simp only [hc1, Option.some.injEq] at hres
        subst hres
        obtain ⟨_, hlt, hhit, hpre⟩ := findCloseGo_some_sound qc _ false 0 j hc1
        rw [Nat.sub_zero] at hlt hhit hpre
        have habs := (closeHit_abs doc pos.line (oq + 1) j qc hoff1).mp hhit
        refine ⟨oq, qc, rfl, hchar, hq3, rfl, habs.1, habs.2, by simp [posLe], ?_⟩
        intro p hp1 hp2
        obtain ⟨pl, pc⟩ := p
        simp only [posLe, posLt, Bool.or_eq_true, Bool.and_eq_true, decide_eq_true_eq] at hp1 hp2
        have hpl : pl = pos.line := by omega
        subst hpl
        have hpc1 : oq + 1 ≤ pc := by omega
        have hpc2 : pc < oq + 1 + j := by omega
        have heq := closeHit_abs doc pos.line (oq + 1) (pc - (oq + 1)) qc hoff1
        rw [show oq + 1 + (pc - (oq + 1)) = pc from by omega] at heq
        intro hcon
        exact hpre (pc - (oq + 1)) (by omega) (heq.mpr hcon)
      | none =>
        simp only [hc1] at hres
        cases hc2 : findCloseLinesGo qc (doc.lines.drop (pos.line + 1)) (pos.line + 1) with
        | none => simp only [hc2] at hres; exact absurd hres (by simp)
        | some lj =>
          obtain ⟨ln, j⟩ := lj
          simp only [hc2, Option.some.injEq] at hres
          subst hres
          obtain ⟨hln0, hlnlt, hline, hlpre⟩ := findCloseLinesGo_some qc _ _ ln j hc2
          have hL : (doc.lines.drop (pos.line + 1)).getD (ln - (pos.line + 1)) [] =
              lineAt doc ln := by
            rw [getD_drop_any [] doc.lines (pos.line + 1) (ln - (pos.line + 1)),
              show pos.line + 1 + (ln - (pos.line + 1)) = ln from by omega]
            rfl
          rw [hL] at hline
          obtain ⟨_, hjlt, hhit, hjpre⟩ := findCloseGo_some_sound qc _ false 0 j hline
          rw [Nat.sub_zero] at hjlt hhit hjpre
          have hhit0 : closeHit qc ((lineAt doc ln).drop 0) false j := by
            rw [List.drop_zero]
            exact hhit
          have habs := (closeHit_abs doc ln 0 j qc (Or.inl rfl)).mp hhit0
          rw [Nat.zero_add] at habs
          refine ⟨oq, qc, rfl, hchar, hq3, rfl, habs.1, habs.2, by simp [posLe]; omega, ?_⟩
          intro p hp1 hp2
          obtain ⟨pl, pc⟩ := p
          simp only [posLe, posLt, Bool.or_eq_true, Bool.and_eq_true, decide_eq_true_eq] at hp1 hp2
          have hfirst := line_no_hit doc pos.line (oq + 1) qc hq3 hoff1
            (findCloseGo_none_sound qc _ false 0 hc1)
          rcases hp2 with hlt2 | ⟨heq2, hlt2⟩
          · -- p strictly before the closing line
            rcases hp1 with hlt1 | ⟨heq1, hge1⟩
            · -- p strictly after the opening line: a middle line
              have hm := hlpre (pl - (pos.line + 1)) (by omega)
              have hLm : (doc.lines.drop (pos.line + 1)).getD (pl - (pos.line + 1)) [] =
                  lineAt doc pl := by
                rw [getD_drop_any [] doc.lines (pos.line + 1) (pl - (pos.line + 1)),
                  show pos.line + 1 + (pl - (pos.line + 1)) = pl from by omega]
                rfl
              rw [hLm] at hm
              have := line_no_hit doc pl 0 qc hq3 (Or.inl rfl) ?_ pc (by omega)
              · exact this
              · intro k hk
                have hk0 : closeHit qc ((lineAt doc pl).drop 0) false k →
                    closeHit qc (lineAt doc pl) false k := by
                  rw [List.drop_zero]; exact id
                intro hcon
                exact findCloseGo_none_sound qc _ false 0 hm k
                  (by rw [List.drop_zero] at hk; exact hk) (hk0 hcon)
            · -- p on the opening line, at or after the region start
              subst heq1
              exact hfirst pc (by omega)
          · -- p on the closing line, before the closing quote
            subst heq2
            have heqk := closeHit_abs doc pl 0 pc qc (Or.inl rfl)
            rw [Nat.zero_add] at heqk
            intro hcon
            have hpccl : closeHit qc ((lineAt doc pl).drop 0) false pc := heqk.mpr hcon
            exact hjpre pc (by omega) hpccl

/-- Witness for claim C8 at concrete documents: a line with no quote, an
unterminated string, and a terminated string. -/
theorem c8_witness :
    getStringRangeAtPosition ⟨"u", 1, ["x <- 5".data]⟩ ⟨0, 3⟩ = none ∧
      getStringRangeAtPosition ⟨"u", 1, ["x \"abc".data]⟩ ⟨0, 4⟩ = none ∧
      (∃ oq qc,
        findOpenQuote (lineAt ⟨"u", 1, ["x <- \"hello\"".data]⟩ 0) 8 = some (oq, qc) ∧
        charAtPos ⟨"u", 1, ["x <- \"hello\"".data]⟩ ⟨0, oq⟩ = qc ∧
        isQuote3 qc = true ∧
        (⟨⟨0, 6⟩, ⟨0, 11⟩⟩ : VSRange).start = ⟨0, oq + 1⟩ ∧
        charAtPos ⟨"u", 1, ["x <- \"hello\"".data]⟩ (⟨⟨0, 6⟩, ⟨0, 11⟩⟩ : VSRange).stop = qc ∧
        ¬ escAtPos ⟨"u", 1, ["x <- \"hello\"".data]⟩ (⟨⟨0, 6⟩, ⟨0, 11⟩⟩ : VSRange).stop ∧
        posLe (⟨⟨0, 6⟩, ⟨0, 11⟩⟩ : VSRange).start (⟨⟨0, 6⟩, ⟨0, 11⟩⟩ : VSRange).stop = true ∧
        ∀ p : VSPosition, posLe (⟨⟨0, 6⟩, ⟨0, 11⟩⟩ : VSRange).start p = true →
          posLt p (⟨⟨0, 6⟩, ⟨0, 11⟩⟩ : VSRange).stop = true →
          ¬(charAtPos ⟨"u", 1, ["x <- \"hello\"".data]⟩ p = qc ∧
            ¬ escAtPos ⟨"u", 1, ["x <- \"hello\"".data]⟩ p)) := by
  refine ⟨?_, ?_, ?_⟩
  · exact c8_getStringRangeAtPosition_correct.1 ⟨"u", 1, ["x <- 5".data]⟩ ⟨0, 3⟩ (by decide)
  · refine c8_getStringRangeAtPosition_correct.2.1 ⟨"u", 1, ["x \"abc".data]⟩ ⟨0, 4⟩ 2 '"'
      (by decide) ?_
    intro p h1 h2 h3
    rintro ⟨hchar, _⟩
    obtain ⟨pl, pc⟩ := p
    have hl0 : pl = 0 := by
      simp only [lineCount] at h2
      simp at h2
      omega
    subst hl0
    have hpc : 2 < pc := h3 rfl
    by_cases hb : pc < 6
    · interval_cases pc <;> exact absurd hchar (by decide)
    · have : charAtPos ⟨"u", 1, ["x \"abc".data]⟩ ⟨0, pc⟩ = nulc := by
        unfold charAtPos lineAt
        refine List.getD_eq_default _ _ ?_
        simp
        omega
      rw [this] at hchar
      exact absurd hchar (by decide)
  · exact c8_getStringRangeAtPosition_correct.2.2 ⟨"u", 1, ["x <- \"hello\"".data]⟩ ⟨0, 8⟩
      ⟨⟨0, 6⟩, ⟨0, 11⟩⟩ (by decide)

/-!
## DocumentCache (src/unnamed/part_002)
-/

/-- A cached SQL region, as stored by the document cache. -/
structure CachedSQLRegion where
  range : VSRange
  functionName : List Char
  isMultiline : Bool
  isGlueString : Bool
  sqlText : List Char
deriving DecidableEq

/-- One cache entry: the document version it was parsed at, the regions,
and the parse timestamp. -/
structure CacheEntry where
  version : Nat
  regions : List CachedSQLRegion
  parseTimestamp : Int
deriving DecidableEq

/-- `DocumentCache.getDocumentKey`. -/
def getDocumentKey (doc : VSDocument) : String := doc.uri

/-- Lookup in the cache map, modelled as an association list. -/
def cacheGet (cache : List (String × CacheEntry)) (key : String) : Option CacheEntry :=
  (cache.find? (fun e => decide (e.1 = key))).map (fun e => e.2)

/-- `Map.delete` on the association list model. -/
def cacheDelete (cache : List (String × CacheEntry)) (key : String) :
    List (String × CacheEntry) :=
  cache.filter (fun e => !(decide (e.1 = key)))

/-- `DocumentCache.getCachedRegions`, with the mutation of the cache map
made explicit (the returned list is the cache after the call) and the
clock reading and configured expiry passed as arguments. -/
def getCachedRegions (cache : List (String × CacheEntry)) (doc : VSDocument)
    (now cacheExpiryMs : Int) :
    Option (List CachedSQLRegion) × List (String × CacheEntry) :=
  let key := getDocumentKey doc
  match cacheGet cache key with
  | none => (none, cache)
  | some cached =>
    if cached.version ≠ doc.version then (none, cacheDelete cache key)
    else if now - cached.parseTimestamp > cacheExpiryMs then (none, cacheDelete cache key)
    else (some cached.regions, cache)

/-- `DocumentCache.updateCache`, with explicit state passing. -/
def updateCache (cache : List (String × CacheEntry)) (doc : VSDocument)
    (regions : List CachedSQLRegion) (now : Int) : List (String × CacheEntry) :=
  (getDocumentKey doc, ⟨doc.version, regions, now⟩) ::
    cacheDelete cache (getDocumentKey doc)

/-- `DocumentCache.invalidateDocument`, with explicit state passing. -/
def invalidateDocument (cache : List (String × CacheEntry)) (doc : VSDocument) :
    List (String × CacheEntry) :=
  cacheDelete cache (getDocumentKey doc)

theorem cacheGet_delete (cache : List (String × CacheEntry)) (key : String) :
    cacheGet (cacheDelete cache key) key = none := by
  induction cache with
  | nil => rfl
  | cons e rest ih =>
    by_cases he : e.1 = key
    · simpa [cacheDelete, cacheGet, he] using ih
    · simpa [cacheDelete, cacheGet, he] using ih

/-- Claim C9 (amended): getCachedRegions returns a non-null region
sequence only when the stored version token equals the current document
version and the entry age is at most the configured expiry (the source
treats an entry as expired only when its age strictly exceeds the expiry,
so an entry whose age equals the expiry is still returned); on a version
mismatch or an expired entry, the entry is removed and null is returned. -/
theorem c9_cache_no_stale (cache : List (String × CacheEntry)) (doc : VSDocument)
    (now expiry : Int) :
    (∀ rs, (getCachedRegions cache doc now expiry).1 = some rs →
      ∃ e, cacheGet cache doc.uri = some e ∧ e.version = doc.version ∧
        now - e.parseTimestamp ≤ expiry ∧ rs = e.regions) ∧
      (∀ e, cacheGet cache doc.uri = some e →
        (e.version ≠ doc.version ∨ now - e.parseTimestamp > expiry) →
        (getCachedRegions cache doc now expiry).1 = none ∧
          cacheGet (getCachedRegions cache doc now expiry).2 doc.uri = none) := by
  constructor
  · intro rs hrs
    simp only [getCachedRegions, getDocumentKey] at hrs
    cases hget : cacheGet cache doc.uri with
    | none =>
      rw [hget] at hrs
      exact absurd hrs (by simp)
    | some e =>
      rw [hget] at hrs
      have hrs2 : (if e.version ≠ doc.version then
          ((none : Option (List CachedSQLRegion)), cacheDelete cache doc.uri)
        else if now - e.parseTimestamp > expiry then (none, cacheDelete cache doc.uri)
        else (some e.regions, cache)).1 = some rs := hrs
      by_cases hv : e.version ≠ doc.version
      · rw [if_pos hv] at hrs2; exact absurd hrs2 (by simp)
      · rw [if_neg hv] at hrs2
        by_cases ht : now - e.parseTimestamp > expiry
        · rw [if_pos ht] at hrs2; exact absurd hrs2 (by simp)
        · rw [if_neg ht] at hrs2
          simp only [Option.some.injEq] at hrs2
          exact ⟨e, rfl, by omega, by omega, hrs2.symm⟩
  · intro e hget hbad
    simp only [getCachedRegions, getDocumentKey, hget]
    by_cases hv : e.version ≠ doc.version
    · rw [if_pos hv]
      exact ⟨rfl, cacheGet_delete cache doc.uri⟩
    · rw [if_neg hv]
      have ht : now - e.parseTimestamp > expiry := by
        rcases hbad with hb | hb
        · exact absurd hb hv
        · exact hb
      rw [if_pos ht]
      exact ⟨rfl, cacheGet_delete cache doc.uri⟩

/-- Claim C9 counterexample: with expiry 5000, an entry whose age is
exactly 5000 is returned non-null, although its age is not strictly below
the configured expiry, refuting the claim as stated. -/
theorem c9_counterexample :
    ((getCachedRegions [("u", (⟨1, [], 0⟩ : CacheEntry))] ⟨"u", 1, []⟩ 5000 5000).1).isSome =
        true ∧
      ¬ ((5000 : Int) - 0 < 5000) := by
  constructor
  · rfl
  · omega

/-- Witness for claim C9 at concrete cache states. -/
theorem c9_witness :
    (∃ e, cacheGet [("u", (⟨1, [], 0⟩ : CacheEntry))] (VSDocument.uri ⟨"u", 1, []⟩) = some e ∧
        e.version = VSDocument.version ⟨"u", 1, []⟩ ∧ (100 : Int) - e.parseTimestamp ≤ 5000 ∧
        ([] : List CachedSQLRegion) = e.regions) ∧
      ((getCachedRegions [("u", (⟨2, [], 0⟩ : CacheEntry))] ⟨"u", 1, []⟩ 100 5000).1 = none ∧
        cacheGet ((getCachedRegions [("u", (⟨2, [], 0⟩ : CacheEntry))] ⟨"u", 1, []⟩
          100 5000).2) (VSDocument.uri ⟨"u", 1, []⟩) = none) :=
  ⟨(c9_cache_no_stale [("u", (⟨1, [], 0⟩ : CacheEntry))] ⟨"u", 1, []⟩ 100 5000).1 [] rfl,
    (c9_cache_no_stale [("u", (⟨2, [], 0⟩ : CacheEntry))] ⟨"u", 1, []⟩ 100 5000).2
      ⟨2, [], 0⟩ rfl (Or.inl (by decide))⟩

/-!
## SQLStringDetector pipeline (src/unnamed/part_003, src/src/sqlBackgroundDecorator.ts)

The detector of part_003 classifies a cursor position: a comment guard, a
whole-document region finder, a call-context resolver and a named-argument
filter.  The region finder module itself is not among the repository files;
it is modelled from the spec and from the decorator code of
src/src/sqlBackgroundDecorator.ts, whose comments state it was copied from
the same provider.
-/

/-- Modelled from the spec: the configured maximum backward line lookback
for call-context resolution (PARSING_LIMITS.CONTEXT_LINE_LOOKBACK of the
types module, which is not among the repository files). -/
def CONTEXT_LINE_LOOKBACK : Nat := 10

/-- Modelled from the spec: the configured maximum document size scanned
(PARSING_LIMITS.MAX_DOCUMENT_SIZE). -/
def MAX_DOCUMENT_SIZE : Nat := 1000000

/-- Modelled from the spec: the configured maximum number of call-name
occurrences matched per scan (PARSING_LIMITS.MAX_FUNCTION_MATCHES). -/
def MAX_FUNCTION_MATCHES : Nat := 100

/-- Modelled from the spec: the configured maximum distance searched
forward for an opening parenthesis
(PARSING_LIMITS.MAX_PAREN_SEARCH_DISTANCE). -/
def MAX_PAREN_SEARCH_DISTANCE : Nat := 200

/-- Modelled from the spec: the configured maximum length searched for a
matching closing parenthesis (PARSING_LIMITS.MAX_FUNCTION_CALL_LENGTH). -/
def MAX_FUNCTION_CALL_LENGTH : Nat := 5000

/-- The direct-SQL call names, as declared inline in
src/src/sqlStringDetector.ts and imported by part_003 from the types
module. -/
def DBI_FUNCTIONS : List (List Char) :=
  ["dbExecute".data, "dbGetQuery".data, "dbSendQuery".data, "dbSendStatement".data,
    "DBI::dbExecute".data, "DBI::dbGetQuery".data, "DBI::dbSendQuery".data,
    "DBI::dbSendStatement".data, "dbplyr::sql".data, "sql".data]

/-- The interpolated-SQL call names, as declared inline in
src/src/sqlStringDetector.ts and imported by part_003 from the types
module. -/
def GLUE_FUNCTIONS : List (List Char) :=
  ["glue".data, "glue_sql".data, "glue_data".data, "glue_data_sql".data,
    "glue::glue".data, "glue::glue_sql".data, "glue::glue_data".data,
    "glue::glue_data_sql".data]

/-- Modelled from the spec: the duckplyr call names imported by part_003
from the types module (which is not among the repository files); the names
appear throughout the example files. -/
def DUCKPLYR_FUNCTIONS : List (List Char) :=
  ["read_sql_duckdb".data, "db_exec".data]

/-- Modelled from the spec: the full configured call-name set scanned by
the region finder (SQL_FUNCTION_NAMES of the types module). -/
def SQL_FUNCTION_NAMES : List (List Char) :=
  DBI_FUNCTIONS ++ GLUE_FUNCTIONS ++ DUCKPLYR_FUNCTIONS

/-- Length of the leading whitespace run (the JS regexp quantifier over the
whitespace class). -/
def wsRun (s : List Char) : Nat := (s.takeWhile isJsSpace).length

/-- Index of the opening parenthesis of a candidate match of the part_003
pattern at start index `m`: the name, then the maximal whitespace run. -/
def parenIdx (text name : List Char) (m : Nat) : Nat :=
  m + name.length + wsRun (text.drop (m + name.length))

/-- One candidate of the part_003 search pattern at index `m`: the call
name not preceded by a word character (the negative lookbehind), followed
by optional whitespace and an opening parenthesis; returns the index of
that parenthesis.  The region finder uses the same pattern with a leading
word-boundary assertion, which agrees with the lookbehind because every
configured name starts with a word character. -/
def matchNameParen (text name : List Char) (m : Nat) : Option Nat :=
  if (decide (m = 0) || !isWordChar (text.getD (m - 1) nulc)) &&
      startsWithL name (text.drop m) &&
      decide (text.getD (parenIdx text name m) nulc = '(') then
    some (parenIdx text name m)
  else none

/-- Match loop of `SQLStringDetector.findFunctionAndValidatePosition`
(part_003): successive pattern matches, each validated by locating the
matching closing parenthesis and testing whether `position` falls inside
the call; the global regexp resumes right after each match. -/
def ffavGo (text name : List Char) (position : Nat) : Nat → Nat → Bool
  | _, 0 => false
  | m, fuel + 1 =>
    match matchNameParen text name m with
    | none => if m < text.length then ffavGo text name position (m + 1) fuel else false
    | some op =>
      if position < op then ffavGo text name position (op + 1) fuel
      else
        match findMatchingCloseParen text op with
        | none => if op ≤ position then true else ffavGo text name position (op + 1) fuel
        | some cp =>
          if op ≤ position && decide (position ≤ cp) then true
          else ffavGo text name position (op + 1) fuel

/-- `SQLStringDetector.findFunctionAndValidatePosition` of part_003. -/
def findFunctionAndValidatePosition (text name : List Char) (position : Nat) : Bool :=
  ffavGo text name position 0 (text.length + 1)

/-- Concatenation of document lines, a newline appended after every line
(the context-gathering loop of `findDBIFunctionContext`). -/
def joinLinesNL : List (List Char) → List Char
  | [] => []
  | l :: rest => l ++ '\n' :: joinLinesNL rest

/-- Total length of the given lines counting one newline per line (the
string-position computation of `findDBIFunctionContext`). -/
def sumLens : List (List Char) → Nat
  | [] => 0
  | l :: rest => l.length + 1 + sumLens rest

/-- `SQLStringDetector.findDBIFunctionContext` of part_003: gathers the
lookback window, computes the flat position of the string inside it, and
returns the first configured call name that validates, direct-SQL names
first, then interpolated, then duckplyr. -/
def findDBIFunctionContext (doc : VSDocument) (position : VSPosition) : Option (List Char) :=
  let startLine := position.line - CONTEXT_LINE_LOOKBACK
  let window := (doc.lines.drop startLine).take (position.line - startLine + 1)
  let searchText := joinLinesNL window
  let stringPosInSearch :=
    sumLens ((doc.lines.drop startLine).take (position.line - startLine)) + position.character
  match DBI_FUNCTIONS.find? (fun fn =>
      findFunctionAndValidatePosition searchText fn stringPosInSearch) with
  | some fn => some fn
  | none =>
    match GLUE_FUNCTIONS.find? (fun fn =>
        findFunctionAndValidatePosition searchText fn stringPosInSearch) with
    | some fn => some fn
    | none => DUCKPLYR_FUNCTIONS.find? (fun fn =>
        findFunctionAndValidatePosition searchText fn stringPosInSearch)

/-- `SQLStringDetector.isGlueFunction`: case-insensitive membership in the
interpolated-SQL call-name list. -/
def isGlueFunction (functionName : List Char) : Bool :=
  GLUE_FUNCTIONS.any (fun f => lowStr f = lowStr functionName)

/-- One global-replace pass over the text for a two-character escape
sequence: a backslash followed by `x` becomes the single character `r`,
scanning left to right without overlap (the JS `replace` with a global
two-character pattern). -/
def replacePair (x r : Char) : List Char → List Char
  | [] => []
  | [c] => [c]
  | c1 :: c2 :: rest =>
    if c1 = bslash && c2 = x then r :: replacePair x r rest
    else c1 :: replacePair x r (c2 :: rest)

/-- `SQLStringDetector.cleanSQLString` of part_003: unescape the four R
string escapes in order, then trim. -/
def cleanSQLString (sql : List Char) : List Char :=
  jsTrim (replacePair 't' '\t' (replacePair 'n' '\n'
    (replacePair squote squote (replacePair '"' '"' sql))))

/-- Loop body of `SQLStringDetector.isInsideComment` of part_003: the first
unescaped hash outside a quoted string decides, comparing its index with
the queried character position. -/
def isInsideCommentGo : List Char → Bool → Bool → Char → Nat → Nat → Bool
  | [], _, _, _, _, _ => false
  | c :: cs, pb, inStr, sc, i, charPosition =>
    let u := quoteUpd true pb inStr sc c
    if !u.1 && c = '#' then decide (i ≤ charPosition)
    else isInsideCommentGo cs (c = bslash) u.1 u.2 (i + 1) charPosition

/-- `SQLStringDetector.isInsideComment` of part_003. -/
def isInsideComment (lineText : List Char) (charPosition : Nat) : Bool :=
  isInsideCommentGo lineText false false nulc 0 charPosition

/-- Concatenation of document lines separated by single newlines, the VS
Code `document.getText()` of the whole document. -/
def joinSepNL : List (List Char) → List Char
  | [] => []
  | [l] => l
  | l :: l2 :: rest => l ++ '\n' :: joinSepNL (l2 :: rest)

/-- Text of the whole document. -/
def fullText (doc : VSDocument) : List Char := joinSepNL doc.lines

/-- Conversion of a flat offset into a (line, character) position, clamped
at the last line (the VS Code `document.positionAt`). -/
def positionAtGo : List (List Char) → Nat → Nat → VSPosition
  | [], ln, _ => ⟨ln, 0⟩
  | [l], ln, off => ⟨ln, min off l.length⟩
  | l :: l2 :: rest, ln, off =>
    if off ≤ l.length then ⟨ln, off⟩
    else positionAtGo (l2 :: rest) (ln + 1) (off - (l.length + 1))

/-- `document.positionAt` for the document. -/
def positionAt (doc : VSDocument) (off : Nat) : VSPosition :=
  positionAtGo doc.lines 0 off

/-- `document.offsetAt` for the document. -/
def offsetAtPos (doc : VSDocument) (pos : VSPosition) : Nat :=
  sumLens (doc.lines.take pos.line) + pos.character

/-- Opening-parenthesis search of `findFunctionCallRange`
(src/src/sqlBackgroundDecorator.ts): walk forward from the match start up
to the configured distance. -/
def findOpenParenGo (text : List Char) : Nat → Nat → Option Nat
  | _, 0 => none
  | i, fuel + 1 =>
    if i < text.length then
      if text.getD i nulc = '(' then some i
      else findOpenParenGo text (i + 1) fuel
    else none

/-- Closing-parenthesis scan of `findFunctionCallRange`
(src/src/sqlBackgroundDecorator.ts): depth starts at zero just after the
opening parenthesis, quoted sub-strings are skipped, and the scan is
bounded by the configured call length; returns the exclusive end offset of
the call. -/
def fcrGo : List Char → Bool → Int → Bool → Char → Nat → Nat → Option Nat
  | _, _, _, _, _, _, 0 => none
  | [], _, _, _, _, _, _ + 1 => none
  | c :: cs, pb, depth, inStr, sc, i, fuel + 1 =>
    let u := quoteUpd true pb inStr sc c
    if u.1 then fcrGo cs (c = bslash) depth u.1 u.2 (i + 1) fuel
    else if c = '(' then fcrGo cs (c = bslash) (depth + 1) u.1 u.2 (i + 1) fuel
    else if c = ')' then
      if depth = 0 then some (i + 1)
      else fcrGo cs (c = bslash) (depth - 1) u.1 u.2 (i + 1) fuel
    else fcrGo cs (c = bslash) depth u.1 u.2 (i + 1) fuel

/-- `findFunctionCallRange` of src/src/sqlBackgroundDecorator.ts: the range
from the function name to just past its matching closing parenthesis. -/
def findFunctionCallRange (doc : VSDocument) (startPos : VSPosition) : Option VSRange :=
  let text := fullText doc
  let startOffset := offsetAtPos doc startPos
  match findOpenParenGo text startOffset MAX_PAREN_SEARCH_DISTANCE with
  | none => none
  | some op =>
    match fcrGo (text.drop (op + 1)) (text.getD op nulc = bslash) 0 false nulc (op + 1)
        MAX_FUNCTION_CALL_LENGTH with
    | none => none
    | some endOff => some ⟨startPos, positionAt doc endOff⟩

/-- Closing-quote scan of `findStringsInRange`
(src/src/sqlBackgroundDecorator.ts): first occurrence of the quote
character not preceded by a backslash. -/
def fsrClose (q : Char) : List Char → Bool → Nat → Option Nat
  | [], _, _ => none
  | c :: cs, pb, j =>
    if c = q && !pb then some j else fsrClose q cs (c = bslash) (j + 1)

/-- Outer loop of `findStringsInRange` (src/src/sqlBackgroundDecorator.ts):
collect, for every quote character with a close, the range strictly between
the delimiters, resuming right after each closing quote. -/
def fsrGo (doc : VSDocument) (text : List Char) (startOffset : Nat) : Nat → Nat → List VSRange
  | _, 0 => []
  | i, fuel + 1 =>
    if i < text.length then
      if isQuote3 (text.getD i nulc) then
        match fsrClose (text.getD i nulc) (text.drop (i + 1)) false (i + 1) with
        | some j =>
          ⟨positionAt doc (startOffset + i + 1), positionAt doc (startOffset + j)⟩ ::
            fsrGo doc text startOffset (j + 1) fuel
        | none => fsrGo doc text startOffset (i + 1) fuel
      else fsrGo doc text startOffset (i + 1) fuel
    else []

/-- `findStringsInRange` of src/src/sqlBackgroundDecorator.ts. -/
def findStringsInRange (doc : VSDocument) (r : VSRange) : List VSRange :=
  let text := getTextRange doc r
  fsrGo doc text (offsetAtPos doc r.start) 0 (text.length + 1)

/-- Modelled from the spec: the per-name match loop of the region finder,
following the decorator code (src/src/sqlBackgroundDecorator.ts): for every
whole-identifier occurrence of the name followed by an opening parenthesis,
skip it when the line before the name starts (after trimming) with a hash,
otherwise bound the call and collect the string ranges inside it; at most
the configured number of matches is processed. -/
def findMatchesGo (doc : VSDocument) (text fn : List Char) : Nat → Nat → Nat → List VSRange
  | _, _, 0 => []
  | _, 0, _ + 1 => []
  | m, mc + 1, fuel + 1 =>
    match matchNameParen text fn m with
    | none =>
      if m < text.length then findMatchesGo doc text fn (m + 1) (mc + 1) fuel else []
    | some op =>
      let funcPos := positionAt doc m
      let lineBefore := (lineAt doc funcPos.line).take funcPos.character
      let rest := findMatchesGo doc text fn (op + 1) mc fuel
      if (trimLeft lineBefore).headD nulc = '#' then rest
      else
        match findFunctionCallRange doc funcPos with
        | none => rest
        | some cr => findStringsInRange doc cr ++ rest

/-- Modelled from the spec: `SQLRegionFinder.findSQLFunctionStrings`, the
whole-document region scan consulted by part_003 (the module itself is not
among the repository files); oversized documents yield no regions, and the
configured call names are scanned in order over the full text. -/
def findSQLFunctionStrings (doc : VSDocument) : List VSRange :=
  let text := fullText doc
  if MAX_DOCUMENT_SIZE < text.length then []
  else
    SQL_FUNCTION_NAMES.foldr
      (fun fn acc => findMatchesGo doc text fn 0 MAX_FUNCTION_MATCHES (text.length + 2) ++ acc)
      []

/-- The context record returned by `SQLStringDetector.isInsideSQLString` of
part_003. -/
structure SQLStringContext where
  query : List Char
  range : VSRange
  functionName : List Char
  isMultiline : Bool
  isGlueString : Bool
deriving DecidableEq

/-- The 50-character backward lookback text before the opening quote of a
string region, trimmed (the named-argument detection of part_003): within
the region start line when at least 50 characters precede, otherwise
crossing one line boundary backward. -/
def textBeforeQuoteOf (doc : VSDocument) (r : VSRange) : List Char :=
  let openQuotePos : VSPosition := ⟨r.start.line, r.start.character - 1⟩
  let lookbackStart : VSPosition :=
    if 50 ≤ r.start.character then ⟨r.start.line, r.start.character - 50⟩
    else if 0 < r.start.line then
      ⟨r.start.line - 1, (lineAt doc (r.start.line - 1)).length - (50 - r.start.character)⟩
    else ⟨0, 0⟩
  jsTrim (getTextRange doc ⟨lookbackStart, openQuotePos⟩)

/-- Whether the text ends with an equals sign (the named-argument test of
part_003). -/
def endsWithEq (s : List Char) : Bool := decide (s.getLastD nulc = '=')

/-- The part_003 allowed-parameter regexp test: the text ends with the word
statement or sql (case-insensitive), optional whitespace, then the equals
sign.  Being a suffix search, any parameter name merely ending in one of
the two words also passes. -/
def sqlStatementEqTest (s : List Char) : Bool :=
  match s.reverse with
  | c :: rest =>
    c = '=' && (startsWithL ("lqs".data) (lowStr (rest.dropWhile isJsSpace)) ||
      startsWithL ("tnemetats".data) (lowStr (rest.dropWhile isJsSpace)))
  | [] => false

/-- The context record built by part_003 for an accepted region. -/
def mkSQLContext (doc : VSDocument) (r : VSRange) (fn : List Char) : SQLStringContext :=
  ⟨cleanSQLString (getTextRange doc r), r, fn,
    decide (r.start.line ≠ r.stop.line), isGlueFunction fn⟩

/-- Loop of `SQLStringDetector.isInsideSQLString` of part_003 over the
found string ranges: the first range containing the position
(start-inclusive, end-exclusive) with a resolvable call context decides;
a named argument of an interpolated call, or of a direct call failing the
allowed-parameter test, yields null outright. -/
def isInsideSQLStringGo (doc : VSDocument) (pos : VSPosition) :
    List VSRange → Option SQLStringContext
  | [] => none
  | r :: rs =>
    if posLe r.start pos && posLt pos r.stop then
      match findDBIFunctionContext doc r.start with
      | none => isInsideSQLStringGo doc pos rs
      | some fn =>
        if endsWithEq (textBeforeQuoteOf doc r) then
          if isGlueFunction fn then none
          else if sqlStatementEqTest (textBeforeQuoteOf doc r) then
            some (mkSQLContext doc r fn)
          else none
        else some (mkSQLContext doc r fn)
    else isInsideSQLStringGo doc pos rs

/-- `SQLStringDetector.isInsideSQLString` of part_003: the comment guard,
then the loop over the ranges found by the region finder. -/
def isInsideSQLString (doc : VSDocument) (pos : VSPosition) : Option SQLStringContext :=
  if isInsideComment (lineAt doc pos.line) pos.character then none
  else isInsideSQLStringGo doc pos (findSQLFunctionStrings doc)

/-- A position whose character is not the null character lies inside the
list. -/
theorem getD_ne_nulc_lt (l : List Char) (k : Nat) (h : l.getD k nulc ≠ nulc) :
    k < l.length := by
  by_contra hk
  exact h (List.getD_eq_default l nulc (by omega))

/-- A word character is not a whitespace character. -/
theorem isWordChar_not_space (c : Char) (h : isWordChar c = true) :
    isJsSpace c = false := by
  by_contra hs
  rw [Bool.not_eq_false] at hs
  unfold isJsSpace at hs
  simp only [Bool.or_eq_true, decide_eq_true_eq] at hs
  rcases hs with ((((hc | hc) | hc) | hc) | hc) | hc <;> rw [hc] at h <;>
    exact absurd h (by decide)

/-- A whitespace run is empty when the first character is not
whitespace. -/
theorem wsRun_eq_zero (s : List Char) (h : isJsSpace (s.getD 0 nulc) = false) :
    wsRun s = 0 := by
  cases s with
  | nil => rfl
  | cons c cs =>
    rw [List.getD_cons_zero] at h
    simp [wsRun, List.takeWhile_cons, h]

/-- A successful pattern match yields an in-bounds start index with the
negative-lookbehind word boundary, the name as prefix there, and an opening
parenthesis right after the whitespace run that follows the name. -/
theorem matchNameParen_some (text name : List Char) (m op : Nat)
    (h : matchNameParen text name m = some op) :
    m < text.length ∧ (m = 0 ∨ isWordChar (text.getD (m - 1) nulc) = false) ∧
      startsWithL name (text.drop m) = true ∧
      text.getD (m + name.length + wsRun (text.drop (m + name.length))) nulc = '(' := by
  unfold matchNameParen at h
  split at h
  case isTrue hg =>
    simp only [Bool.and_eq_true, Bool.or_eq_true, decide_eq_true_eq,
      Bool.not_eq_true'] at hg
    obtain ⟨⟨hb, hs⟩, hp⟩ := hg
    have hlt : parenIdx text name m < text.length :=
      getD_ne_nulc_lt text (parenIdx text name m) (by rw [hp]; decide)
    have hmle : m ≤ parenIdx text name m := by unfold parenIdx; omega
    unfold parenIdx at hp
    exact ⟨by omega, hb, hs, hp⟩
  case isFalse => exact absurd h (by simp)

/-- Any accepted position of the part_003 validator comes from a pattern
match, hence from a whole-identifier occurrence of the name followed by
optional whitespace and an opening parenthesis. -/
theorem ffavGo_sound (text name : List Char) (position : Nat) :
    ∀ fuel m, ffavGo text name position m fuel = true →
      ∃ k, k < text.length ∧ (k = 0 ∨ isWordChar (text.getD (k - 1) nulc) = false) ∧
        startsWithL name (text.drop k) = true ∧
        text.getD (k + name.length + wsRun (text.drop (k + name.length))) nulc = '(' := by
  intro fuel
  induction fuel with
  | zero => intro m h; exact absurd h (by simp [ffavGo])
  | succ fuel ih =>
    intro m h
    simp only [ffavGo] at h
    cases hm : matchNameParen text name m with
    | none =>
      simp only [hm] at h
      split at h
      · exact ih _ h
      · exact absurd h (by simp)
    | some op => exact ⟨m, matchNameParen_some text name m op hm⟩

/-- Claim C2: the part_003 call-context resolver recognizes a configured
call name only as a whole identifier followed by optional whitespace and an
opening parenthesis.  First conjunct: whenever
findFunctionAndValidatePosition accepts, the window holds an occurrence of
the name that is not preceded by a word character and is followed, after
its maximal whitespace run, by an opening parenthesis.  Second conjunct:
when every occurrence of the name in the window is a proper substring of a
longer identifier — preceded by a word character, as sql inside madeup_sql,
or immediately followed by one, as sql inside sqlite — the resolver never
accepts, for any position. -/
theorem c2_whole_identifier_matching (text name : List Char) (position : Nat) :
    (findFunctionAndValidatePosition text name position = true →
      ∃ k, k < text.length ∧ (k = 0 ∨ isWordChar (text.getD (k - 1) nulc) = false) ∧
        startsWithL name (text.drop k) = true ∧
        text.getD (k + name.length + wsRun (text.drop (k + name.length))) nulc = '(') ∧
    ((∀ k, k < text.length → startsWithL name (text.drop k) = true →
        (0 < k ∧ isWordChar (text.getD (k - 1) nulc) = true) ∨
          isWordChar (text.getD (k + name.length) nulc) = true) →
      findFunctionAndValidatePosition text name position = false) := by
  constructor
  · exact fun h => ffavGo_sound text name position _ _ h
  · intro hcov
    cases hres : findFunctionAndValidatePosition text name position
    · rfl
    · obtain ⟨k, hk, hb, hs, hp⟩ := ffavGo_sound text name position _ _ hres
      rcases hcov k hk hs with ⟨hk0, hw⟩ | hw2
      · rcases hb with hb | hb
        · omega
        · rw [hw] at hb
          exact hb
      · have hws : wsRun (text.drop (k + name.length)) = 0 := by
          apply wsRun_eq_zero
          rw [getD_drop_eq]
          rw [Nat.add_zero]
          exact isWordChar_not_space _ hw2
        rw [hws, Nat.add_zero] at hp
        rw [hp] at hw2
        exact absurd hw2 (by decide)

/-- Witness for claim C2: the name sql is rejected at a position inside the
string both when it occurs only as a suffix of the longer identifier
madeup_sql and when it occurs only as a prefix of the longer identifier
sqlite, while the whole identifier madeup_sql is accepted there. -/
theorem c2_witness :
    findFunctionAndValidatePosition ("madeup_sql(\"SELECT 1\")".data) ("sql".data) 12 =
        false ∧
      findFunctionAndValidatePosition ("sqlite(\"SELECT 1\")".data) ("sql".data) 9 =
        false ∧
      findFunctionAndValidatePosition ("madeup_sql(\"SELECT 1\")".data)
        ("madeup_sql".data) 12 = true :=
  ⟨(c2_whole_identifier_matching ("madeup_sql(\"SELECT 1\")".data) ("sql".data) 12).2
      (by decide),
    (c2_whole_identifier_matching ("sqlite(\"SELECT 1\")".data) ("sql".data) 9).2
      (by decide),
    by decide⟩

/-- When the flagged scan of a line shows an unescaped hash outside any
quoted string at index `k`, the part_003 comment test accepts every
position at or after `k`. -/
theorem isInsideCommentGo_hash :
    ∀ (cs : List Char) (pb inStr : Bool) (sc : Char) (i cp k : Nat),
      (scanFlags true cs pb inStr sc).getD k (nulc, true) = ('#', false) →
      i + k ≤ cp →
      isInsideCommentGo cs pb inStr sc i cp = true := by
  intro cs
  induction cs with
  | nil =>
    intro pb inStr sc i cp k h _
    simp [scanFlags] at h
  | cons c cs ih =>
    intro pb inStr sc i cp k h hle
    simp only [scanFlags] at h
    simp only [isInsideCommentGo]
    by_cases hbr : (!(quoteUpd true pb inStr sc c).1 && c = '#') = true
    · rw [if_pos hbr]
      simp only [decide_eq_true_eq]
      omega
    · rw [if_neg hbr]
      cases k with
      | zero =>
        rw [List.getD_cons_zero] at h
        have hc : c = '#' := congrArg Prod.fst h
        have hu : (quoteUpd true pb inStr sc c).1 = false := congrArg Prod.snd h
        have hat : (!(quoteUpd true pb inStr sc c).1 && decide (c = '#')) = true := by
          rw [hu, hc]
          rfl
        exact absurd hat hbr
      | succ k =>
        rw [List.getD_cons_succ] at h
        exact ih (c = bslash) _ _ (i + 1) cp k h (by omega)

/-- Claim C7: when a document line holds an unescaped hash outside any
quoted string at index `k` of its flagged scan, the part_003 classifier
returns null for every position on that line at or after `k`, regardless of
SQL-bearing call names appearing elsewhere in the document — the comment
guard fires before the region finder is consulted. -/
theorem c7_comment_excludes_sql (doc : VSDocument) (pos : VSPosition) (k : Nat)
    (hk : (scanFlags true (lineAt doc pos.line) false false nulc).getD k (nulc, true) =
      ('#', false))
    (hpos : k ≤ pos.character) :
    isInsideSQLString doc pos = none := by
  have hc : isInsideComment (lineAt doc pos.line) pos.character = true :=
    isInsideCommentGo_hash (lineAt doc pos.line) false false nulc 0 pos.character k hk
      (by omega)
  unfold isInsideSQLString
  rw [if_pos hc]

/-- Witness for claim C7: a two-line document whose first line is a
dbGetQuery call and whose second line is a comment line of SQL text; the
classifier returns null at the start of the comment line and inside its SQL
words. -/
theorem c7_witness :
    isInsideSQLString ⟨"w7", 1, ["dbGetQuery(con, \"SELECT 1\")".data,
        "# SELECT * FROM t".data]⟩ ⟨1, 5⟩ = none ∧
      isInsideSQLString ⟨"w7", 1, ["dbGetQuery(con, \"SELECT 1\")".data,
        "# SELECT * FROM t".data]⟩ ⟨1, 0⟩ = none :=
  ⟨c7_comment_excludes_sql _ ⟨1, 5⟩ 0 (by decide) (by decide),
    c7_comment_excludes_sql _ ⟨1, 0⟩ 0 (by decide) (by decide)⟩

/-- The range field of the built context record. -/
theorem mkSQLContext_range (doc : VSDocument) (r : VSRange) (fn : List Char) :
    (mkSQLContext doc r fn).range = r := rfl

/-- The query field of the built context record. -/
theorem mkSQLContext_query (doc : VSDocument) (r : VSRange) (fn : List Char) :
    (mkSQLContext doc r fn).query = cleanSQLString (getTextRange doc r) := rfl

/-- The interpolation flag of the built context record. -/
theorem mkSQLContext_isGlueString (doc : VSDocument) (r : VSRange) (fn : List Char) :
    (mkSQLContext doc r fn).isGlueString = isGlueFunction fn := rfl

set_option maxHeartbeats 1000000 in
/-- Reduction of the range loop on the empty range list. -/
theorem isInsideSQLStringGo_nil (doc : VSDocument) (pos : VSPosition) :
    isInsideSQLStringGo doc pos [] = none := rfl

set_option maxHeartbeats 1000000 in
/-- One step of the range loop on a nonempty range list. -/
theorem isInsideSQLStringGo_cons (doc : VSDocument) (pos : VSPosition) (r : VSRange)
    (rs : List VSRange) :
    isInsideSQLStringGo doc pos (r :: rs) =
      if posLe r.start pos && posLt pos r.stop then
        match findDBIFunctionContext doc r.start with
        | none => isInsideSQLStringGo doc pos rs
        | some fn =>
          if endsWithEq (textBeforeQuoteOf doc r) then
            if isGlueFunction fn then none
            else if sqlStatementEqTest (textBeforeQuoteOf doc r) then
              some (mkSQLContext doc r fn)
            else none
          else some (mkSQLContext doc r fn)
      else isInsideSQLStringGo doc pos rs := rfl

/-- Every context the part_003 range loop returns passed the
named-argument filter: when the lookback text of the returned range ends
with an equals sign, the call is not interpolated and the text passes the
allowed-parameter suffix test. -/
theorem isInsideSQLStringGo_filter (doc : VSDocument) (pos : VSPosition)
    (ctx : SQLStringContext) :
    ∀ l, isInsideSQLStringGo doc pos l = some ctx →
      endsWithEq (textBeforeQuoteOf doc ctx.range) = true →
      ctx.isGlueString = false ∧
        sqlStatementEqTest (textBeforeQuoteOf doc ctx.range) = true := by
  intro l
  induction l with
  | nil =>
    intro h _
    rw [isInsideSQLStringGo_nil] at h
    exact absurd h (by simp)
  | cons r rs ih =>
    intro h hEq
    rw [isInsideSQLStringGo_cons] at h
    split at h
    case isTrue hin =>
      split at h
      case h_1 hfc => exact ih h hEq
      case h_2 fn hfc =>
        split at h
        case isTrue he =>
          split at h
          case isTrue hg => exact absurd h (by simp)
          case isFalse hg =>
            split at h
            case isTrue ht =>
              have hcx : mkSQLContext doc r fn = ctx := Option.some.inj h
              constructor
              · rw [← hcx, mkSQLContext_isGlueString]
                exact Bool.not_eq_true _ |>.mp hg
              · rw [← hcx, mkSQLContext_range]
                exact ht
            case isFalse ht => exact absurd h (by simp)
        case isFalse he =>
          have hcx : mkSQLContext doc r fn = ctx := Option.some.inj h
          rw [← hcx, mkSQLContext_range] at hEq
          exact absurd hEq he
    case isFalse hin => exact ih h hEq

/-- Claim C1 (amended): the part_003 named-argument filter.  Whenever the
classifier returns a context whose 50-character lookback text ends with an
equals sign, the enclosing call is not an interpolated (glue) call — any
named argument of a glue call yields null — and the lookback text passes
the allowed-parameter test; that test is a case-insensitive suffix search
for statement or sql followed by optional whitespace and the equals sign,
so parameter names merely ending in one of the two words also pass. -/
theorem c1_named_argument_filter (doc : VSDocument) (pos : VSPosition)
    (ctx : SQLStringContext)
    (h : isInsideSQLString doc pos = some ctx)
    (hEq : endsWithEq (textBeforeQuoteOf doc ctx.range) = true) :
    ctx.isGlueString = false ∧
      sqlStatementEqTest (textBeforeQuoteOf doc ctx.range) = true := by
  unfold isInsideSQLString at h
  split at h
  · exact absurd h (by simp)
  · exact isInsideSQLStringGo_filter doc pos ctx _ h hEq

set_option maxHeartbeats 8000000 in
/-- Claim C1 counterexample: in the call of a direct-SQL function with the
named argument mysql, the parameter name ending at the equals sign is
mysql — neither statement nor sql — yet the classifier returns a non-null
context for a position inside the string, because the filter is a suffix
match and mysql ends in sql. -/
theorem c1_counterexample :
    isInsideSQLString ⟨"c1", 1, ["dbGetQuery(con, mysql = \"SELECT 1\")".data]⟩
        ⟨0, 26⟩ =
      some ⟨"SELECT 1".data, ⟨⟨0, 25⟩, ⟨0, 33⟩⟩, "dbGetQuery".data, false, false⟩ ∧
    textBeforeQuoteOf ⟨"c1", 1, ["dbGetQuery(con, mysql = \"SELECT 1\")".data]⟩
        ⟨⟨0, 25⟩, ⟨0, 33⟩⟩ = ("dbGetQuery(con, mysql =".data) :=
  ⟨by decide, by decide⟩

set_option maxHeartbeats 8000000 in
/-- Witness for claim C1: the allowed named argument statement of a
direct-SQL call is kept, and the filter theorem applies to the returned
context; the spec example of a prudence named argument of a duckplyr call
is classified null. -/
theorem c1_witness :
    (isInsideSQLString ⟨"w1", 1, ["dbGetQuery(con, statement = \"SELECT 1\")".data]⟩
        ⟨0, 30⟩ =
      some ⟨"SELECT 1".data, ⟨⟨0, 29⟩, ⟨0, 37⟩⟩, "dbGetQuery".data, false, false⟩) ∧
    ((⟨"SELECT 1".data, ⟨⟨0, 29⟩, ⟨0, 37⟩⟩, "dbGetQuery".data, false,
        false⟩ : SQLStringContext).isGlueString = false ∧
      sqlStatementEqTest (textBeforeQuoteOf
        ⟨"w1", 1, ["dbGetQuery(con, statement = \"SELECT 1\")".data]⟩
        (VSRange.mk ⟨0, 29⟩ ⟨0, 37⟩)) = true) ∧
    isInsideSQLString
        ⟨"p1", 1, ["read_sql_duckdb(\"SELECT 1\", prudence = \"thrifty\")".data]⟩
        ⟨0, 42⟩ = none :=
  ⟨by decide,
    c1_named_argument_filter ⟨"w1", 1, ["dbGetQuery(con, statement = \"SELECT 1\")".data]⟩
      ⟨0, 30⟩ ⟨"SELECT 1".data, ⟨⟨0, 29⟩, ⟨0, 37⟩⟩, "dbGetQuery".data, false, false⟩
      (by decide) (by decide),
    by decide⟩

/-- Every context the part_003 range loop returns carries as query the
cleaned text of its range, not the verbatim text. -/
theorem isInsideSQLStringGo_query (doc : VSDocument) (pos : VSPosition)
    (ctx : SQLStringContext) :
    ∀ l, isInsideSQLStringGo doc pos l = some ctx →
      ctx.query = cleanSQLString (getTextRange doc ctx.range) := by
  intro l
  induction l with
  | nil =>
    intro h
    rw [isInsideSQLStringGo_nil] at h
    exact absurd h (by simp)
  | cons r rs ih =>
    intro h
    rw [isInsideSQLStringGo_cons] at h
    split at h
    case isTrue hin =>
      split at h
      case h_1 hfc => exact ih h
      case h_2 fn hfc =>
        split at h
        case isTrue he =>
          split at h
          case isTrue hg => exact absurd h (by simp)
          case isFalse hg =>
            split at h
            case isTrue ht =>
              have hcx : mkSQLContext doc r fn = ctx := Option.some.inj h
              rw [← hcx, mkSQLContext_query, mkSQLContext_range]
            case isFalse ht => exact absurd h (by simp)
        case isFalse he =>
          have hcx : mkSQLContext doc r fn = ctx := Option.some.inj h
          rw [← hcx, mkSQLContext_query, mkSQLContext_range]
    case isFalse hin => exact ih h

/-- Claim C10: the query field of every returned context is the range text
after unescaping the four R string escapes and trimming, which in general
differs from the verbatim document text of the range — as the second
conjunct shows on a text with escaped quotes and surrounding whitespace. -/
theorem c10_query_is_cleaned :
    (∀ (doc : VSDocument) (pos : VSPosition) (ctx : SQLStringContext),
        isInsideSQLString doc pos = some ctx →
          ctx.query = cleanSQLString (getTextRange doc ctx.range)) ∧
      cleanSQLString ("\t SELECT \\\"a\\\"  ".data) ≠ "\t SELECT \\\"a\\\"  ".data := by
  constructor
  · intro doc pos ctx h
    unfold isInsideSQLString at h
    split at h
    · exact absurd h (by simp)
    · exact isInsideSQLStringGo_query doc pos ctx _ h
  · decide

set_option maxHeartbeats 8000000 in
/-- Witness for claim C10: on a call whose string holds escaped quotes and
padding whitespace, the returned context is non-null, its query is the
cleaned range text, and the query differs from the verbatim range text. -/
theorem c10_witness :
    (isInsideSQLString ⟨"w10", 1, ["dbGetQuery(con, \" SELECT \\\"a\\\" \")".data]⟩
        ⟨0, 18⟩ =
      some ⟨"SELECT \"a\"".data, ⟨⟨0, 17⟩, ⟨0, 31⟩⟩, "dbGetQuery".data, false, false⟩) ∧
    ((⟨"SELECT \"a\"".data, ⟨⟨0, 17⟩, ⟨0, 31⟩⟩, "dbGetQuery".data, false,
          false⟩ : SQLStringContext).query =
        cleanSQLString (getTextRange
          ⟨"w10", 1, ["dbGetQuery(con, \" SELECT \\\"a\\\" \")".data]⟩
          (VSRange.mk ⟨0, 17⟩ ⟨0, 31⟩))) ∧
    ("SELECT \"a\"".data : List Char) ≠
      getTextRange ⟨"w10", 1, ["dbGetQuery(con, \" SELECT \\\"a\\\" \")".data]⟩
        (VSRange.mk ⟨0, 17⟩ ⟨0, 31⟩) :=
  ⟨by decide,
    c10_query_is_cleaned.1 ⟨"w10", 1, ["dbGetQuery(con, \" SELECT \\\"a\\\" \")".data]⟩
      ⟨0, 18⟩
      ⟨"SELECT \"a\"".data, ⟨⟨0, 17⟩, ⟨0, 31⟩⟩, "dbGetQuery".data, false, false⟩
      (by decide),
    by decide⟩
